import Mathlib

/-!
ttlmap: a concurrent map whose entries expire after a timeout

A shallow embedding of `ttlmap.go` and `reaper.go`, followed by theorems about it.

Modelling decisions, all visible in the definitions below:

* A `time.Time` is an `Int`: the number of nanoseconds between it and the package variable
  `startTime`; `Time.Add` and `Time.Before` are exact on it.  A `time.Duration` and the
  contents of an `atomic.Int64` are int64 values: arithmetic written directly on them in the
  source (`lastRun + int64(m.timeout/2)`, `-m.timeout`) wraps around (`wrapInt64`), and
  `Time.Sub` saturates (`satInt64`).
* The source reads the clock through the hook `wrapNow` and starts goroutines through the hook
  `wrapGo` ("replaced for deterministic testing").  Every operation takes the reading `now`
  that `wrapNow` returns during the call.  A call of `wrapGo` is counted in `goroutines`, as
  `DeterministicEnv` does in the tests; the launched sweep runs when `CleanNow` is applied at a
  later point of the execution.
* `sync.Map` is a list of key/entry pairs without repeated keys (`WF`).  `Range` visits the pairs
  in list order, which is one of the orders Go allows; theorems quantify over every list.
* An expiration callback is observed through the list `expirations` of its calls, and it
  either returns or panics (`CallResult`).
* Operations run one after another: a compare-and-swap sees the value just read.
* `time.NewTicker` is the standard library's: it panics on a duration that is not positive.
  A constructor that panics yields `none`.
-/

namespace ttlmap

/-! ## Machine integers and time -/

/-- Smallest value of Go's int64. -/
def minInt64 : Int := -9223372036854775808

/-- Largest value of Go's int64. -/
def maxInt64 : Int := 9223372036854775807

/-- Membership in the int64 range. -/
def isInt64 (x : Int) : Prop := minInt64 ≤ x ∧ x ≤ maxInt64

instance (x : Int) : Decidable (isInt64 x) := by unfold isInt64; infer_instance

/-- Two's complement wrap-around of int64 arithmetic. -/
def wrapInt64 (x : Int) : Int :=
  (x + 9223372036854775808) % 18446744073709551616 - 9223372036854775808

/-- Saturation to the int64 range, as done by `Time.Sub`. -/
def satInt64 (x : Int) : Int :=
  if x < minInt64 then minInt64 else if maxInt64 < x then maxInt64 else x

/-- Source: `nowNanos`, `wrapNow().Sub(startTime).Nanoseconds()`, where `now` is what
`wrapNow()` returns, in nanoseconds since `startTime`. -/
def nowNanos (now : Int) : Int := satInt64 now

/-- Source: `atomic` `CompareAndSwap` on a cell holding `cur`: the new content and whether
the swap took place. -/
def compareAndSwap {α : Type} [DecidableEq α] (cur old new : α) : α × Bool :=
  if cur = old then (new, true) else (cur, false)

/-! ## Data model -/

/-- How a call of a Go function ends. -/
inductive CallResult where
  | returned
  | panicked
  deriving DecidableEq, Repr

/-- Source: `entry[T]`. -/
structure entry (T : Type) where
  inner : T
  created : Int
  deriving DecidableEq, Repr

/-- Source: `TTLMap[K, V]`.  `expired` is `none` for a nil callback. -/
structure TTLMap (K V : Type) where
  timeout : Int
  expired : Option (K → V → CallResult)
  m : List (K × entry V)
  cleaning : Bool
  lastRun : Int

/-- A map together with what its environment observes: the number of `wrapGo` calls and the
arguments of the calls of the expiration callback, oldest first. -/
structure World (K V : Type) extends TTLMap K V where
  goroutines : Nat
  expirations : List (K × V)

/-- Source: `Option[K, V]`, a function applied to the map under construction. -/
abbrev MapOption (K V : Type) := TTLMap K V → TTLMap K V

/-- What a visitor passed to `Range` did: returned true, returned false, or panicked. -/
inductive Visit (σ : Type) where
  | more (s : σ)
  | stop (s : σ)
  | panic (s : σ)

/-! ## The underlying `sync.Map` -/

namespace syncMap

variable {K E : Type} [DecidableEq K]

/-- `sync.Map.Load`. -/
def Load : List (K × E) → K → Option E
  | [], _ => none
  | (k, e) :: rest, key => if k = key then some e else Load rest key

/-- `sync.Map.Delete`. -/
def Delete (l : List (K × E)) (key : K) : List (K × E) :=
  l.filter (fun p => decide (p.1 ≠ key))

/-- `sync.Map.LoadAndDelete`: the previous value, if any, and the new content. -/
def LoadAndDelete (l : List (K × E)) (key : K) : Option E × List (K × E) :=
  (Load l key, Delete l key)

/-- `sync.Map.Store`. -/
def Store (l : List (K × E)) (key : K) (e : E) : List (K × E) :=
  (key, e) :: Delete l key

/-- `sync.Map.LoadOrStore`: the actual value, whether it was loaded, and the new content. -/
def LoadOrStore (l : List (K × E)) (key : K) (e : E) : (E × Bool) × List (K × E) :=
  match Load l key with
  | some a => ((a, true), l)
  | none => ((e, false), (key, e) :: l)

/-- `sync.Map.Range` over the pairs present when it is called, threading the state the
visitor acts on.  The second component tells whether the visitor panicked. -/
def Range {σ : Type} (f : K → E → σ → Visit σ) : List (K × E) → σ → σ × CallResult
  | [], s => (s, CallResult.returned)
  | (k, e) :: rest, s =>
    match f k e s with
    | Visit.more s1 => Range f rest s1
    | Visit.stop s1 => (s1, CallResult.returned)
    | Visit.panic s1 => (s1, CallResult.panicked)

end syncMap

/-! ## Operations of `TTLMap` -/

section Ops

variable {K V : Type} [DecidableEq K]

/-- Source: `WithExpirationCallback`. -/
def WithExpirationCallback (f : K → V → CallResult) : MapOption K V :=
  fun m => { m with expired := some f }

/-- Source: `New`, called when the clock reads `now`. -/
def New (now : Int) (timeout : Int) (options : List (MapOption K V)) : TTLMap K V :=
  let m : TTLMap K V :=
    { timeout := timeout, expired := none, m := [], cleaning := false, lastRun := 0 }
  let m := { m with lastRun := nowNanos now }
  options.foldl (fun acc opt => opt acc) m

/-- A map seen from an environment that has observed nothing yet. -/
def World.ofMap (m : TTLMap K V) : World K V :=
  { toTTLMap := m, goroutines := 0, expirations := [] }

/-- Source: `Delete`. -/
def Delete (key : K) (w : World K V) : World K V :=
  { w with m := syncMap.Delete w.m key }

/-- Source: `Load`; `some v` stands for `(v, true)` and `none` for `ok = false`. -/
def Load (key : K) (w : World K V) : Option V :=
  match syncMap.Load w.m key with
  | some raw => some raw.inner
  | none => none

/-- Source: `LoadAndDelete`; the result is read as for `Load`. -/
def LoadAndDelete (key : K) (w : World K V) : Option V × World K V :=
  let r := syncMap.LoadAndDelete w.m key
  let w1 : World K V := { w with m := r.2 }
  match r.1 with
  | some raw => (some raw.inner, w1)
  | none => (none, w1)

/-- Source: `hit`. -/
def hit (now : Int) (w : World K V) : World K V :=
  let lastRun := w.lastRun
  let nextRun := wrapInt64 (lastRun + Int.tdiv w.timeout 2)
  if nextRun < nowNanos now then
    match compareAndSwap w.lastRun lastRun nextRun with
    | (v, true) => { w with lastRun := v, goroutines := w.goroutines + 1 }
    | (_, false) => w
  else w

/-- Source: `LoadOrStore`; the result is `(actual, loaded)`. -/
def LoadOrStore (now : Int) (key : K) (value : V) (w : World K V) : (V × Bool) × World K V :=
  let r := syncMap.LoadOrStore w.m key { inner := value, created := now }
  let w1 : World K V := { w with m := r.2 }
  match r.1 with
  | (raw, true) => ((raw.inner, true), w1)
  | (_, false) => ((value, false), hit now w1)

/-- Source: `range_`. -/
def range_ {σ : Type} (f : K → entry V → σ → Visit σ) (w : World K V) (s : σ) :
    σ × CallResult :=
  syncMap.Range f w.m s

/-- Source: `Range`.  The visitor acts on a state of its own and cannot reach the map. -/
def Range {σ : Type} (f : K → V → σ → Visit σ) (w : World K V) (s : σ) :
    σ × CallResult :=
  range_ (fun key value acc => f key value.inner acc) w s

/-- Source: `Store`. -/
def Store (now : Int) (key : K) (value : V) (w : World K V) : World K V :=
  hit now { w with m := syncMap.Store w.m key { inner := value, created := now } }

/-- Source: the function literal that `CleanNow` passes to `range_`. -/
def expireVisit (expireBefore : Int) (key : K) (value : entry V) (w : World K V) :
    Visit (World K V) :=
  if value.created < expireBefore then
    let r := syncMap.LoadAndDelete w.m key
    let w1 : World K V := { w with m := r.2 }
    match w1.expired, r.1.isSome with
    | some f, true =>
      let w2 : World K V := { w1 with expirations := w1.expirations ++ [(key, value.inner)] }
      match f key value.inner with
      | CallResult.returned => Visit.more w2
      | CallResult.panicked => Visit.panic w2
    | _, _ => Visit.more w1
  else Visit.more w

/-- Source: `CleanNow`, called when the clock reads `now`.  The deferred
`m.cleaning.Store(false)` runs on both ways out of the scan. -/
def CleanNow (now : Int) (w : World K V) : World K V × CallResult :=
  match compareAndSwap w.cleaning false true with
  | (_, false) => (w, CallResult.returned)
  | (c, true) =>
    let w1 : World K V := { w with cleaning := c }
    let expireBefore : Int := now + wrapInt64 (-w1.timeout)
    let r := range_ (expireVisit expireBefore) w1 w1
    ({ r.1 with cleaning := false }, r.2)

end Ops

/-! ## Reaper -/

/-- What the `select` in `Reaper.run` receives: a tick of the ticker, delivered when the clock
reads `now`, or the closing of the stop channel. -/
inductive ReaperEvent where
  | tick (now : Int)
  | stop

/-- Source: `Reaper.run`, over the events it receives in order.  `expire` is `m.CleanNow`. -/
def Reaper.run {σ : Type} (expire : Int → σ → σ × CallResult) :
    List ReaperEvent → σ → σ × CallResult
  | [], s => (s, CallResult.returned)
  | ReaperEvent.tick now :: rest, s =>
    match expire now s with
    | (s1, CallResult.returned) => Reaper.run expire rest s1
    | (s1, CallResult.panicked) => (s1, CallResult.panicked)
  | ReaperEvent.stop :: _, s => (s, CallResult.returned)

/-- A `time.Ticker`: its period in nanoseconds and whether it is running. -/
structure Ticker where
  period : Int
  running : Bool
  deriving DecidableEq, Repr

/-- Go's `time.NewTicker`, as its documentation has it: "The duration d must be greater than
zero; if not, NewTicker will panic."  `none` stands for the panic. -/
def NewTicker (d : Int) : Option Ticker :=
  if d ≤ 0 then none else some { period := d, running := true }

/-- Source: `Reaper`; `stop` tells whether the stop channel has been closed. -/
structure Reaper where
  ticker : Ticker
  stop : Bool
  deriving DecidableEq, Repr

/-- Source: `NewReaperWithInterval`; `none` stands for the panic of `time.NewTicker`.  The
goroutine it starts, `result.run(m.CleanNow)`, is `Reaper.run CleanNow` on the map `m`. -/
def NewReaperWithInterval {K V : Type} (_m : World K V) (d : Int) : Option Reaper :=
  match NewTicker d with
  | none => none
  | some ticker => some { ticker := ticker, stop := false }

/-- Source: `NewReaper`. -/
def NewReaper {K V : Type} (m : World K V) : Option Reaper :=
  NewReaperWithInterval m (Int.tdiv m.timeout 2)

/-! ## Sequences of writes -/

/-- A write that runs the throttled-scheduling check: `Store`, or `LoadOrStore` (which runs
it when it inserts). -/
inductive Write (K V : Type) where
  | store (key : K) (value : V)
  | loadOrStore (key : K) (value : V)

/-- The state after one write made at reading `now`. -/
def Write.apply {K V : Type} [DecidableEq K] (now : Int) : Write K V → World K V → World K V
  | Write.store key value, w => Store now key value w
  | Write.loadOrStore key value, w => (LoadOrStore now key value w).2

/-- The state after a sequence of writes, each paired with the clock reading it is made
at. -/
def runWrites {K V : Type} [DecidableEq K] : List (Int × Write K V) → World K V → World K V
  | [], w => w
  | (now, op) :: rest, w => runWrites rest (op.apply now w)

/-- The clock readings of those writes of the sequence that launch a sweep (that call
`wrapGo`), in order. -/
def launchReadings {K V : Type} [DecidableEq K] :
    List (Int × Write K V) → World K V → List Int
  | [], _ => []
  | (now, op) :: rest, w =>
    if (op.apply now w).goroutines = w.goroutines then launchReadings rest (op.apply now w)
    else now :: launchReadings rest (op.apply now w)

/-! ## Sequences of operations -/

/-- A call of one of the operations of the map.  `load` stands for the calls that only read
(`Load`, `Range`). -/
inductive Op (K V : Type) where
  | store (key : K) (value : V)
  | loadOrStore (key : K) (value : V)
  | load (key : K)
  | delete (key : K)
  | loadAndDelete (key : K)
  | cleanNow

/-- The state after one operation made at reading `now`. -/
def Op.apply {K V : Type} [DecidableEq K] (now : Int) : Op K V → World K V → World K V
  | Op.store key value, w => Store now key value w
  | Op.loadOrStore key value, w => (LoadOrStore now key value w).2
  | Op.load _, w => w
  | Op.delete key, w => Delete key w
  | Op.loadAndDelete key, w => (LoadAndDelete key w).2
  | Op.cleanNow, w => (CleanNow now w).1

/-- The run of a sequence of operations, each paired with the clock reading it is made at:
after every operation, that reading and the state reached. -/
def trace {K V : Type} [DecidableEq K] :
    List (Int × Op K V) → World K V → List (Int × World K V)
  | [], _ => []
  | (now, op) :: rest, w => (now, op.apply now w) :: trace rest (op.apply now w)

/-- The state after a sequence of operations, each paired with the clock reading it is made
at. -/
def runOps {K V : Type} [DecidableEq K] : List (Int × Op K V) → World K V → World K V
  | [], w => w
  | (now, op) :: rest, w => runOps rest (op.apply now w)

/-! ## Well-formed states -/

/-- No key occurs twice in the store. -/
def WF {K V : Type} (w : World K V) : Prop := (w.m.map Prod.fst).Nodup

instance {K V : Type} [DecidableEq K] (w : World K V) : Decidable (WF w) := by
  unfold WF; infer_instance

/-- The callback, when there is one, returns normally on every argument. -/
def CallbackReturns {K V : Type} (w : World K V) : Prop :=
  ∀ f, w.expired = some f → ∀ k v, f k v = CallResult.returned

/-! ## Specification vocabulary -/

/-- The reading after which the throttle allows the next sweep: `lastRun + timeout/2`, the
division truncating as Go's does. -/
def nextAllowed {K V : Type} (w : World K V) : Int := w.lastRun + Int.tdiv w.timeout 2

/-- Readings of the clock that `hit` handles without overflow for every int64 timeout that is
not negative: less than 2^62 ns (146 years) away from `startTime`. -/
def inClockRange (t : Int) : Prop := -4611686018427387904 ≤ t ∧ t < 4611686018427387904

instance (t : Int) : Decidable (inClockRange t) := by unfold inClockRange; infer_instance

/-- The calls of the expiration callback that a completed scan of `l` with cut-off `eb`
adds: one per pair created before `eb`, in scan order, when a callback is set. -/
def sweepCalls {K V : Type} (w : World K V) (eb : Int) (l : List (K × entry V)) :
    List (K × V) :=
  match w.expired with
  | some _ => (l.filter (fun p => decide (p.2.created < eb))).map (fun p => (p.1, p.2.inner))
  | none => []

/-- The entries of the store that are expired at reading `now`: created before
`now - timeout`. -/
def expiredEntries {K V : Type} (now : Int) (w : World K V) : List (K × entry V) :=
  w.m.filter (fun p => decide (p.2.created < now - w.timeout))

/-- A visitor of `Range` that, besides doing what `g` does, records each call: the key, the
value, and whether `g` returned true. -/
def recordingVisitor {K V σ : Type} (g : K → V → σ → Visit σ) :
    K → V → σ × List (K × V × Bool) → Visit (σ × List (K × V × Bool))
  | key, value, (s, calls) =>
    match g key value s with
    | Visit.more s1 => Visit.more (s1, calls ++ [(key, value, true)])
    | Visit.stop s1 => Visit.stop (s1, calls ++ [(key, value, false)])
    | Visit.panic s1 => Visit.panic (s1, calls ++ [(key, value, false)])

/-! ## Sample states used to instantiate the theorems -/

/-- A callback that always returns. -/
def quietCallback : Nat → Nat → CallResult := fun _ _ => CallResult.returned

/-- A map with timeout 10 holding three entries created at 0, 5 and 20. -/
def sampleWorld : World Nat Nat :=
  { timeout := 10, expired := some quietCallback,
    m := [(1, { inner := 100, created := 0 }), (2, { inner := 200, created := 5 }),
          (3, { inner := 300, created := 20 })],
    cleaning := false, lastRun := 0, goroutines := 0, expirations := [] }

/-- A map with timeout 10 built at reading 0, before any write. -/
def freshWorld : World Nat Nat := World.ofMap (New 0 10 [])

/-- Two writes made one nanosecond apart after the map has been idle for ten timeouts. -/
def burstWrites : List (Int × Write Nat Nat) :=
  [(100, Write.store 1 1), (101, Write.loadOrStore 2 2)]

/-- The state `sampleWorld` while a sweep is in progress. -/
def busyWorld : World Nat Nat := { sampleWorld with cleaning := true }

/-- A callback that panics on key 1 and returns on every other key. -/
def faultyCallback : Nat → Nat → CallResult :=
  fun key _ => if key = 1 then CallResult.panicked else CallResult.returned

/-- A map with timeout 10 and the callback `faultyCallback`, holding two entries created at 0
and one created at 100. -/
def faultyWorld : World Nat Nat :=
  { timeout := 10, expired := some faultyCallback,
    m := [(1, { inner := 100, created := 0 }), (2, { inner := 200, created := 0 }),
          (3, { inner := 300, created := 100 })],
    cleaning := false, lastRun := 0, goroutines := 0, expirations := [] }

/-- A visitor that counts its calls and stops at key 2. -/
def stopAtTwo : Nat → Nat → Nat → Visit Nat :=
  fun key _ n => if key = 2 then Visit.stop (n + 1) else Visit.more (n + 1)

/-- A run of four operations at the readings 100, 101, 101 and 200. -/
def sampleOps : List (Int × Op Nat Nat) :=
  [(100, Op.store 1 1), (101, Op.cleanNow), (101, Op.loadOrStore 2 2), (200, Op.delete 1)]

/-- A map with a timeout of one nanosecond, built at reading 0. -/
def tinyWorld : World Nat Nat := World.ofMap (New 0 1 [])

/-- A map with timeout 10 built with the callback `faultyCallback` at reading 0, after
`Store(2, 200)` and then `Store(1, 100)`, both at reading 0. -/
def builtFaultyWorld : World Nat Nat :=
  runOps [(0, Op.store 2 200), (0, Op.store 1 100)]
    (World.ofMap (New 0 10 (([] ++ [faultyCallback]).map WithExpirationCallback)))

/-- Six `Store` calls at reading 1. -/
def sixWrites : List (Int × Write Nat Nat) :=
  [(1, Write.store 1 1), (1, Write.store 2 2), (1, Write.store 3 3), (1, Write.store 4 4),
   (1, Write.store 5 5), (1, Write.store 6 6)]

/-- A map with timeout 10 built with the callback `quietCallback` at reading 0, after three
`Store` calls at the readings 0, 5 and 12. -/
def builtQuietWorld : World Nat Nat :=
  runOps [(0, Op.store 1 100), (5, Op.store 2 200), (12, Op.store 3 300)]
    (World.ofMap (New 0 10 (([] ++ [quietCallback]).map WithExpirationCallback)))

/-! ## Machine integers -/

theorem wrapInt64_of_isInt64 {x : Int} (h : isInt64 x) : wrapInt64 x = x := by
  unfold isInt64 minInt64 maxInt64 at h
  unfold wrapInt64
  omega

theorem satInt64_of_isInt64 {x : Int} (h : isInt64 x) : satInt64 x = x := by
  unfold isInt64 at h
  unfold satInt64
  rw [if_neg (by omega), if_neg (by omega)]

theorem nowNanos_of_isInt64 {now : Int} (h : isInt64 now) : nowNanos now = now :=
  satInt64_of_isInt64 h

namespace syncMap

variable {K E : Type} [DecidableEq K]

theorem Load_eq_none_iff (l : List (K × E)) (key : K) :
    Load l key = none ↔ key ∉ l.map Prod.fst := by
  induction l with
  | nil => simp [Load]
  | cons p rest ih =>
    obtain ⟨k, e⟩ := p
    by_cases h : k = key
    · simp [Load, h]
    · have h2 : ¬ key = k := fun c => h c.symm
      simp [Load, h, h2, ih]

theorem Load_mem {l : List (K × E)} {key : K} {e : E} (h : Load l key = some e) :
    (key, e) ∈ l := by
  induction l with
  | nil => simp [Load] at h
  | cons p rest ih =>
    obtain ⟨k, a⟩ := p
    by_cases hk : k = key
    · simp [Load, hk] at h
      simp [hk, h]
    · simp [Load, hk] at h
      exact List.mem_cons_of_mem _ (ih h)

theorem Load_of_mem {l : List (K × E)} {key : K} {e : E} (hn : (l.map Prod.fst).Nodup)
    (h : (key, e) ∈ l) : Load l key = some e := by
  induction l with
  | nil => simp at h
  | cons p rest ih =>
    obtain ⟨k, a⟩ := p
    simp only [List.map_cons, List.nodup_cons] at hn
    rcases List.mem_cons.mp h with h1 | h1
    · injection h1 with h2 h3
      subst h2; subst h3
      simp [Load]
    · have hk : k ≠ key := by
        intro c
        subst c
        exact hn.1 (List.mem_map_of_mem Prod.fst h1)
      simp [Load, hk, ih hn.2 h1]

theorem Delete_sublist (l : List (K × E)) (key : K) : List.Sublist (Delete l key) l :=
  List.filter_sublist l

theorem Delete_nodup {l : List (K × E)} (key : K) (hn : (l.map Prod.fst).Nodup) :
    ((Delete l key).map Prod.fst).Nodup :=
  hn.sublist ((Delete_sublist l key).map Prod.fst)

theorem not_mem_keys_Delete (l : List (K × E)) (key : K) :
    key ∉ (Delete l key).map Prod.fst := by
  simp [Delete]

theorem Load_Delete_self (l : List (K × E)) (key : K) : Load (Delete l key) key = none :=
  (Load_eq_none_iff _ _).mpr (not_mem_keys_Delete l key)

theorem Delete_cons_self (l : List (K × E)) (key : K) (e : E) :
    Delete ((key, e) :: l) key = Delete l key := by
  simp [Delete]

theorem Delete_cons_of_ne (l : List (K × E)) {key k : K} (e : E) (h : k ≠ key) :
    Delete ((k, e) :: l) key = (k, e) :: Delete l key := by
  simp [Delete, h]

theorem Load_Delete_of_ne (l : List (K × E)) {key k : K} (h : k ≠ key) :
    Load (Delete l key) k = Load l k := by
  induction l with
  | nil => simp [Delete, Load]
  | cons p rest ih =>
    obtain ⟨k1, a⟩ := p
    by_cases h1 : k1 = key
    · subst h1
      have h2 : ¬ k1 = k := fun c => h c.symm
      rw [Delete_cons_self, ih]
      simp [Load, h2]
    · rw [Delete_cons_of_ne rest a h1]
      simp only [Load, ih]

theorem Delete_of_not_mem {l : List (K × E)} {key : K} (h : key ∉ l.map Prod.fst) :
    Delete l key = l := by
  unfold Delete
  rw [List.filter_eq_self]
  intro p hp
  have : p.1 ≠ key := by
    intro c
    exact h (c ▸ List.mem_map_of_mem Prod.fst hp)
  simpa using this

theorem Delete_append_cons {l1 l2 : List (K × E)} {key : K} {e : E}
    (hn : ((l1 ++ (key, e) :: l2).map Prod.fst).Nodup) :
    Delete (l1 ++ (key, e) :: l2) key = l1 ++ l2 := by
  have h1 : key ∉ l1.map Prod.fst := by
    intro c
    simp only [List.map_append, List.map_cons] at hn
    exact (List.nodup_append.mp hn).2.2 c (List.mem_cons_self _ _)
  have h2 : key ∉ l2.map Prod.fst := by
    simp only [List.map_append, List.map_cons] at hn
    exact (List.nodup_cons.mp (List.nodup_append.mp hn).2.1).1
  have d1 := Delete_of_not_mem h1
  have d2 := Delete_of_not_mem h2
  unfold Delete at d1 d2 ⊢
  rw [List.filter_append, List.filter_cons, d1, d2]
  simp

theorem Load_append_cons {l1 l2 : List (K × E)} {key : K} {e : E}
    (hn : ((l1 ++ (key, e) :: l2).map Prod.fst).Nodup) :
    Load (l1 ++ (key, e) :: l2) key = some e :=
  Load_of_mem hn (by simp)

theorem Store_nodup {l : List (K × E)} (key : K) (e : E) (hn : (l.map Prod.fst).Nodup) :
    ((Store l key e).map Prod.fst).Nodup := by
  unfold Store
  simp only [List.map_cons, List.nodup_cons]
  exact ⟨not_mem_keys_Delete l key, Delete_nodup key hn⟩

theorem LoadOrStore_nodup {l : List (K × E)} (key : K) (e : E) (hn : (l.map Prod.fst).Nodup) :
    (((LoadOrStore l key e).2).map Prod.fst).Nodup := by
  unfold LoadOrStore
  cases h : Load l key with
  | some a => simpa using hn
  | none =>
    simp only [List.map_cons, List.nodup_cons]
    exact ⟨(Load_eq_none_iff l key).mp h, hn⟩

end syncMap

/-! ## The scan of a sweep -/

section Sweep
variable {K V : Type} [DecidableEq K]

theorem Range_expireVisit (eb : Int) :
    ∀ (rest done : List (K × entry V)) (w : World K V),
      w.m = done ++ rest → ((done ++ rest).map Prod.fst).Nodup → CallbackReturns w →
      syncMap.Range (expireVisit eb) rest w =
        ({ w with
            m := done ++ rest.filter (fun p => decide (¬ p.2.created < eb)),
            expirations := w.expirations ++ sweepCalls w eb rest },
          CallResult.returned) := by
  intro rest
  induction rest with
  | nil =>
    intro done w hm _ _
    rcases w with ⟨⟨_, x, _, _, _⟩, _, _⟩
    cases x <;> simp_all [syncMap.Range, sweepCalls]
  | cons p rest ih =>
    intro done w hm hn hcb
    obtain ⟨k, e⟩ := p
    by_cases hx : e.created < eb
    · have hdel : syncMap.Delete w.m k = done ++ rest := by
        rw [hm]; exact syncMap.Delete_append_cons hn
      have hload : syncMap.Load w.m k = some e := by
        rw [hm]; exact syncMap.Load_append_cons hn
      have hn2 : ((done ++ rest).map Prod.fst).Nodup := by
        rw [← hdel]; exact syncMap.Delete_nodup k (hm ▸ hn)
      cases hw : w.expired with
      | none =>
        have hstep : expireVisit eb k e w = Visit.more { w with m := done ++ rest } := by
          simp [expireVisit, hx, syncMap.LoadAndDelete, hdel, hload, hw]
        rw [syncMap.Range, hstep]
        simp only
        rw [ih done { w with m := done ++ rest } rfl hn2 (by intro f hf; exact hcb f hf)]
        simp [sweepCalls, hw, hx]
      | some f =>
        have hstep : expireVisit eb k e w =
            Visit.more { w with m := done ++ rest,
                                expirations := w.expirations ++ [(k, e.inner)] } := by
          simp [expireVisit, hx, syncMap.LoadAndDelete, hdel, hload, hw, hcb f hw k e.inner]
        rw [syncMap.Range, hstep]
        simp only
        rw [ih done _ rfl hn2 (by intro g hg; exact hcb g hg)]
        simp [sweepCalls, hw, hx]
    · have hstep : expireVisit eb k e w = Visit.more w := by
        simp [expireVisit, hx]
      rw [syncMap.Range, hstep]
      simp only
      rw [ih (done ++ [(k, e)]) w (by simp [hm]) (by simpa using hn) hcb]
      have hx2 : eb ≤ e.created := not_lt.mp hx
      cases hw : w.expired <;> simp [sweepCalls, hw, hx, hx2, List.filter_cons]

theorem expireVisit_cases (eb : Int) (k : K) (e : entry V) (w : World K V) :
    ∃ w1 : World K V,
      (expireVisit eb k e w = Visit.more w1 ∨ expireVisit eb k e w = Visit.panic w1) ∧
      w1.m = (if e.created < eb then syncMap.Delete w.m k else w.m) ∧
      w1.timeout = w.timeout ∧ w1.expired = w.expired ∧ w1.lastRun = w.lastRun ∧
      w1.goroutines = w.goroutines ∧ w1.cleaning = w.cleaning := by
  unfold expireVisit
  by_cases hx : e.created < eb
  · simp only [hx, if_true]
    split
    · split
      · exact ⟨_, Or.inl rfl, rfl, rfl, rfl, rfl, rfl, rfl⟩
      · exact ⟨_, Or.inr rfl, rfl, rfl, rfl, rfl, rfl, rfl⟩
    · exact ⟨_, Or.inl rfl, rfl, rfl, rfl, rfl, rfl, rfl⟩
  · simp only [hx, if_false]
    exact ⟨w, Or.inl rfl, rfl, rfl, rfl, rfl, rfl, rfl⟩

theorem Range_expireVisit_frame (eb : Int) :
    ∀ (rest : List (K × entry V)) (w : World K V),
      (syncMap.Range (expireVisit eb) rest w).1.timeout = w.timeout ∧
      (syncMap.Range (expireVisit eb) rest w).1.expired = w.expired ∧
      (syncMap.Range (expireVisit eb) rest w).1.lastRun = w.lastRun ∧
      (syncMap.Range (expireVisit eb) rest w).1.goroutines = w.goroutines ∧
      (syncMap.Range (expireVisit eb) rest w).1.cleaning = w.cleaning := by
  intro rest
  induction rest with
  | nil => intro w; simp [syncMap.Range]
  | cons p rest ih =>
    intro w
    obtain ⟨k, e⟩ := p
    obtain ⟨w1, hv, _, h1, h2, h3, h4, h5⟩ := expireVisit_cases eb k e w
    rcases hv with hv | hv
    · rw [syncMap.Range, hv]
      simp only
      obtain ⟨i1, i2, i3, i4, i5⟩ := ih w1
      exact ⟨i1.trans h1, i2.trans h2, i3.trans h3, i4.trans h4, i5.trans h5⟩
    · rw [syncMap.Range, hv]
      exact ⟨h1, h2, h3, h4, h5⟩

theorem Range_expireVisit_keeps (eb : Int) :
    ∀ (rest : List (K × entry V)) (w : World K V),
      (rest.map Prod.fst).Nodup → (∀ p ∈ rest, syncMap.Load w.m p.1 = some p.2) →
      ∀ (key : K) (a : entry V), syncMap.Load w.m key = some a → ¬ a.created < eb →
        syncMap.Load (syncMap.Range (expireVisit eb) rest w).1.m key = some a := by
  intro rest
  induction rest with
  | nil => intro w _ _ key a h _; simpa [syncMap.Range] using h
  | cons p rest ih =>
    intro w hn hinv key a hload hfresh
    obtain ⟨k, e⟩ := p
    simp only [List.map_cons, List.nodup_cons] at hn
    obtain ⟨w1, hv, hm, -⟩ := expireVisit_cases eb k e w
    have hke : syncMap.Load w.m k = some e := hinv (k, e) (List.mem_cons_self _ _)
    have hkey : syncMap.Load w1.m key = some a := by
      rw [hm]
      by_cases hx : e.created < eb
      · have hne : key ≠ k := by
          intro c
          subst c
          rw [hke] at hload
          injection hload with h2
          subst h2
          exact hfresh hx
        rw [if_pos hx, syncMap.Load_Delete_of_ne _ hne]
        exact hload
      · rw [if_neg hx]
        exact hload
    have hinv1 : ∀ p ∈ rest, syncMap.Load w1.m p.1 = some p.2 := by
      intro p hp
      have hne : p.1 ≠ k := by
        intro c
        exact hn.1 (c ▸ List.mem_map_of_mem Prod.fst hp)
      rw [hm]
      by_cases hx : e.created < eb
      · rw [if_pos hx, syncMap.Load_Delete_of_ne _ hne]
        exact hinv p (List.mem_cons_of_mem _ hp)
      · rw [if_neg hx]
        exact hinv p (List.mem_cons_of_mem _ hp)
    rcases hv with hv | hv
    · rw [syncMap.Range, hv]
      exact ih w1 hn.2 hinv1 key a hkey hfresh
    · rw [syncMap.Range, hv]
      exact hkey

end Sweep

/-! ## `CleanNow` as a whole -/

section Clean
variable {K V : Type} [DecidableEq K]

theorem wrapInt64_neg_timeout {t : Int} (h1 : minInt64 < t) (h2 : t ≤ maxInt64) :
    wrapInt64 (-t) = -t := by
  apply wrapInt64_of_isInt64
  unfold minInt64 at h1
  unfold maxInt64 at h2
  unfold isInt64 minInt64 maxInt64
  omega

theorem CleanNow_of_cleaning (now : Int) (w : World K V) (h : w.cleaning = true) :
    CleanNow now w = (w, CallResult.returned) := by
  simp [CleanNow, compareAndSwap, h]

theorem CleanNow_of_idle (now : Int) (w : World K V) (h : w.cleaning = false) :
    CleanNow now w =
      ({ (syncMap.Range (expireVisit (now + wrapInt64 (-w.timeout))) w.m
            { w with cleaning := true }).1 with cleaning := false },
       (syncMap.Range (expireVisit (now + wrapInt64 (-w.timeout))) w.m
            { w with cleaning := true }).2) := by
  simp [CleanNow, compareAndSwap, h, range_]

theorem CleanNow_complete (now : Int) (w : World K V) (hwf : WF w) (hcb : CallbackReturns w)
    (hidle : w.cleaning = false) (h1 : minInt64 < w.timeout) (h2 : w.timeout ≤ maxInt64) :
    CleanNow now w =
      ({ w with
          m := w.m.filter (fun p => decide (¬ p.2.created < now - w.timeout)),
          expirations := w.expirations ++ sweepCalls w (now - w.timeout) w.m },
        CallResult.returned) := by
  rw [CleanNow_of_idle now w hidle, wrapInt64_neg_timeout h1 h2]
  have hr := Range_expireVisit (now + -w.timeout) w.m [] { w with cleaning := true } rfl
    (by simpa [WF] using hwf) (by intro f hf; exact hcb f hf)
  rw [hr]
  rcases w with ⟨⟨_, _, _, _, _⟩, _, _⟩
  simp_all [sweepCalls, sub_eq_add_neg]

theorem CleanNow_frame (now : Int) (w : World K V) :
    (CleanNow now w).1.timeout = w.timeout ∧ (CleanNow now w).1.expired = w.expired ∧
    (CleanNow now w).1.lastRun = w.lastRun ∧ (CleanNow now w).1.goroutines = w.goroutines := by
  cases h : w.cleaning with
  | true => rw [CleanNow_of_cleaning now w h]; exact ⟨rfl, rfl, rfl, rfl⟩
  | false =>
    rw [CleanNow_of_idle now w h]
    obtain ⟨i1, i2, i3, i4, _⟩ :=
      Range_expireVisit_frame (now + wrapInt64 (-w.timeout)) w.m { w with cleaning := true }
    exact ⟨i1, i2, i3, i4⟩

theorem CleanNow_keeps (now : Int) (w : World K V) (hwf : WF w) (key : K) (a : entry V)
    (hload : syncMap.Load w.m key = some a)
    (hfresh : ¬ a.created < now + wrapInt64 (-w.timeout)) :
    syncMap.Load (CleanNow now w).1.m key = some a := by
  cases h : w.cleaning with
  | true => rw [CleanNow_of_cleaning now w h]; exact hload
  | false =>
    rw [CleanNow_of_idle now w h]
    exact Range_expireVisit_keeps (now + wrapInt64 (-w.timeout)) w.m { w with cleaning := true }
      hwf (fun p hp => syncMap.Load_of_mem hwf hp) key a hload hfresh

end Clean

/-! ## The throttle -/

section Throttle
variable {K V : Type}

theorem hit_frame (now : Int) (w : World K V) :
    (hit now w).m = w.m ∧ (hit now w).timeout = w.timeout ∧ (hit now w).expired = w.expired ∧
    (hit now w).cleaning = w.cleaning ∧ (hit now w).expirations = w.expirations := by
  unfold hit
  simp only [compareAndSwap, if_true]
  split <;> exact ⟨rfl, rfl, rfl, rfl, rfl⟩

theorem hit_of_past (now : Int) (w : World K V) (hnow : isInt64 now)
    (hnext : isInt64 (nextAllowed w)) (h : nextAllowed w < now) :
    hit now w = { w with lastRun := nextAllowed w, goroutines := w.goroutines + 1 } := by
  unfold nextAllowed at hnext h
  unfold hit
  simp only [compareAndSwap, if_true, nowNanos_of_isInt64 hnow, wrapInt64_of_isInt64 hnext,
    if_pos h, nextAllowed]

theorem hit_of_not_past (now : Int) (w : World K V) (hnow : isInt64 now)
    (hnext : isInt64 (nextAllowed w)) (h : now ≤ nextAllowed w) :
    hit now w = w := by
  unfold nextAllowed at hnext h
  unfold hit
  simp only [compareAndSwap, if_true, nowNanos_of_isInt64 hnow, wrapInt64_of_isInt64 hnext,
    if_neg (not_lt.mpr h)]

theorem isInt64_nextAllowed (w : World K V) (h0 : 0 ≤ w.timeout) (h1 : w.timeout ≤ maxInt64)
    (hL : inClockRange w.lastRun) : isInt64 (nextAllowed w) := by
  unfold inClockRange at hL
  unfold maxInt64 at h1
  unfold isInt64 nextAllowed minInt64 maxInt64
  rw [Int.tdiv_eq_ediv h0 (by decide)]
  omega

theorem isInt64_of_inClockRange {t : Int} (h : inClockRange t) : isInt64 t := by
  unfold inClockRange at h
  unfold isInt64 minInt64 maxInt64
  omega

end Throttle

section ThrottleWrites
variable {K V : Type} [DecidableEq K]

theorem Write_apply_throttle (now : Int) (op : Write K V) (w : World K V)
    (hnow : isInt64 now) (hnext : isInt64 (nextAllowed w)) :
    (op.apply now w).timeout = w.timeout ∧
    (((op.apply now w).lastRun = w.lastRun ∧ (op.apply now w).goroutines = w.goroutines) ∨
     (nextAllowed w < now ∧ (op.apply now w).lastRun = nextAllowed w ∧
        (op.apply now w).goroutines = w.goroutines + 1)) := by
  have key1 : ∀ w1 : World K V, w1.lastRun = w.lastRun → w1.timeout = w.timeout →
      w1.goroutines = w.goroutines →
      (hit now w1).timeout = w.timeout ∧
      (((hit now w1).lastRun = w.lastRun ∧ (hit now w1).goroutines = w.goroutines) ∨
       (nextAllowed w < now ∧ (hit now w1).lastRun = nextAllowed w ∧
          (hit now w1).goroutines = w.goroutines + 1)) := by
    intro w1 e1 e2 e3
    have hn : nextAllowed w1 = nextAllowed w := by simp [nextAllowed, e1, e2]
    by_cases hl : nextAllowed w < now
    · rw [hit_of_past now w1 hnow (hn ▸ hnext) (hn ▸ hl)]
      exact ⟨e2, Or.inr ⟨hl, hn, by simp [e3]⟩⟩
    · rw [hit_of_not_past now w1 hnow (hn ▸ hnext) (hn ▸ not_lt.mp hl)]
      exact ⟨e2, Or.inl ⟨e1, e3⟩⟩
  cases op with
  | store key value =>
    exact key1 { w with m := syncMap.Store w.m key { inner := value, created := now } }
      rfl rfl rfl
  | loadOrStore key value =>
    cases hload : syncMap.Load w.m key with
    | some a =>
      have : (Write.loadOrStore key value).apply now w = { w with m := w.m } := by
        simp [Write.apply, LoadOrStore, syncMap.LoadOrStore, hload]
      rw [this]
      exact ⟨rfl, Or.inl ⟨rfl, rfl⟩⟩
    | none =>
      have : (Write.loadOrStore key value).apply now w =
          hit now { w with m := (key, { inner := value, created := now }) :: w.m } := by
        simp [Write.apply, LoadOrStore, syncMap.LoadOrStore, hload]
      rw [this]
      exact key1 _ rfl rfl rfl

end ThrottleWrites

/-! ## Construction -/

section NewLemmas
variable {K V : Type}

theorem foldl_WithExpirationCallback (fs : List (K → V → CallResult)) (m : TTLMap K V) :
    ((fs.map WithExpirationCallback).foldl (fun acc opt => opt acc) m).timeout = m.timeout ∧
    ((fs.map WithExpirationCallback).foldl (fun acc opt => opt acc) m).m = m.m ∧
    ((fs.map WithExpirationCallback).foldl (fun acc opt => opt acc) m).cleaning = m.cleaning ∧
    ((fs.map WithExpirationCallback).foldl (fun acc opt => opt acc) m).lastRun = m.lastRun := by
  induction fs generalizing m with
  | nil => exact ⟨rfl, rfl, rfl, rfl⟩
  | cons f rest ih =>
    simp only [List.map_cons, List.foldl_cons]
    exact ih (WithExpirationCallback f m)

theorem New_fields (now timeout : Int) (fs : List (K → V → CallResult)) :
    (New now timeout (fs.map WithExpirationCallback)).timeout = timeout ∧
    (New now timeout (fs.map WithExpirationCallback)).m = [] ∧
    (New now timeout (fs.map WithExpirationCallback)).cleaning = false ∧
    (New now timeout (fs.map WithExpirationCallback)).lastRun = nowNanos now := by
  unfold New
  exact foldl_WithExpirationCallback fs _

end NewLemmas

/-! ## `Store` -/

section StoreLemmas
variable {K V : Type} [DecidableEq K]

theorem Store_m (now : Int) (key : K) (value : V) (w : World K V) :
    (Store now key value w).m = (key, { inner := value, created := now }) ::
      syncMap.Delete w.m key :=
  (hit_frame now _).1

theorem Store_timeout (now : Int) (key : K) (value : V) (w : World K V) :
    (Store now key value w).timeout = w.timeout :=
  (hit_frame now _).2.1

theorem Store_WF (now : Int) (key : K) (value : V) (w : World K V) (hwf : WF w) :
    WF (Store now key value w) := by
  unfold WF
  rw [Store_m]
  exact syncMap.Store_nodup key _ hwf

theorem Load_Store_self (now : Int) (key : K) (value : V) (w : World K V) :
    syncMap.Load (Store now key value w).m key = some { inner := value, created := now } := by
  rw [Store_m]
  simp [syncMap.Load]

end StoreLemmas

/-! ## Well-formedness is kept by every operation -/

section PreservationNew
variable {K V : Type}

theorem New_WF (now timeout : Int) (fs : List (K → V → CallResult)) :
    WF (World.ofMap (New now timeout (fs.map WithExpirationCallback))) := by
  unfold WF
  have h : (World.ofMap (New now timeout (fs.map WithExpirationCallback))).m = [] :=
    (New_fields now timeout fs).2.1
  rw [h]
  exact List.nodup_nil

end PreservationNew

section Preservation
variable {K V : Type} [DecidableEq K]

theorem Delete_WF (key : K) (w : World K V) (hwf : WF w) : WF (Delete key w) :=
  syncMap.Delete_nodup key hwf

theorem LoadAndDelete_WF (key : K) (w : World K V) (hwf : WF w) :
    WF (LoadAndDelete key w).2 := by
  unfold LoadAndDelete
  simp only
  split <;> exact syncMap.Delete_nodup key hwf

theorem LoadOrStore_WF (now : Int) (key : K) (value : V) (w : World K V) (hwf : WF w) :
    WF (LoadOrStore now key value w).2 := by
  have h := syncMap.LoadOrStore_nodup key ({ inner := value, created := now } : entry V) hwf
  unfold LoadOrStore
  simp only
  split
  · exact h
  · unfold WF
    rw [(hit_frame now _).1]
    exact h

theorem Range_expireVisit_sublist (eb : Int) :
    ∀ (rest : List (K × entry V)) (w : World K V),
      List.Sublist (syncMap.Range (expireVisit eb) rest w).1.m w.m := by
  intro rest
  induction rest with
  | nil => intro w; exact List.Sublist.refl _
  | cons p rest ih =>
    intro w
    obtain ⟨k, e⟩ := p
    obtain ⟨w1, hv, hm, -⟩ := expireVisit_cases eb k e w
    have hs : List.Sublist w1.m w.m := by
      rw [hm]
      split
      · exact syncMap.Delete_sublist w.m k
      · exact List.Sublist.refl _
    rcases hv with hv | hv
    · rw [syncMap.Range, hv]
      exact (ih w1).trans hs
    · rw [syncMap.Range, hv]
      exact hs

theorem CleanNow_sublist (now : Int) (w : World K V) :
    List.Sublist (CleanNow now w).1.m w.m := by
  cases h : w.cleaning with
  | true => rw [CleanNow_of_cleaning now w h]
  | false =>
    rw [CleanNow_of_idle now w h]
    exact Range_expireVisit_sublist _ w.m { w with cleaning := true }

theorem CleanNow_WF (now : Int) (w : World K V) (hwf : WF w) : WF (CleanNow now w).1 :=
  hwf.sublist ((CleanNow_sublist now w).map Prod.fst)

end Preservation

/-! ## A scan cut short by a panic -/

section SweepPanic
variable {K V : Type} [DecidableEq K]

theorem Range_expireVisit_until_panic (eb : Int) (f : K → V → CallResult) :
    ∀ (before done : List (K × entry V)) (k : K) (e : entry V) (rest : List (K × entry V))
      (w : World K V),
      w.m = done ++ (before ++ (k, e) :: rest) →
      ((done ++ (before ++ (k, e) :: rest)).map Prod.fst).Nodup →
      w.expired = some f →
      (∀ p ∈ before, p.2.created < eb → f p.1 p.2.inner = CallResult.returned) →
      e.created < eb → f k e.inner = CallResult.panicked →
      syncMap.Range (expireVisit eb) (before ++ (k, e) :: rest) w =
        ({ w with
            m := done ++ (before.filter (fun p => decide (¬ p.2.created < eb)) ++ rest),
            expirations := w.expirations ++
              ((before.filter (fun p => decide (p.2.created < eb))).map
                (fun p => (p.1, p.2.inner)) ++ [(k, e.inner)]) },
          CallResult.panicked) := by
  intro before
  induction before with
  | nil =>
    intro done k e rest w hm hn hf _ hx hp
    simp only [List.nil_append] at hm hn
    have hdel : syncMap.Delete w.m k = done ++ rest := by
      rw [hm]; exact syncMap.Delete_append_cons hn
    have hload : syncMap.Load w.m k = some e := by
      rw [hm]; exact syncMap.Load_append_cons hn
    have hstep : expireVisit eb k e w =
        Visit.panic { w with m := done ++ rest,
                             expirations := w.expirations ++ [(k, e.inner)] } := by
      simp [expireVisit, hx, syncMap.LoadAndDelete, hdel, hload, hf, hp]
    simp only [List.nil_append, syncMap.Range, hstep, List.filter_nil, List.map_nil]
  | cons p before ih =>
    intro done k e rest w hm hn hf hret hx hp
    obtain ⟨k1, e1⟩ := p
    simp only [List.cons_append] at hm hn ⊢
    have hret1 : ∀ q ∈ before, q.2.created < eb → f q.1 q.2.inner = CallResult.returned :=
      fun q hq => hret q (List.mem_cons_of_mem _ hq)
    by_cases hx1 : e1.created < eb
    · have hdel : syncMap.Delete w.m k1 = done ++ (before ++ (k, e) :: rest) := by
        rw [hm]; exact syncMap.Delete_append_cons hn
      have hload : syncMap.Load w.m k1 = some e1 := by
        rw [hm]; exact syncMap.Load_append_cons hn
      have hn2 : ((done ++ (before ++ (k, e) :: rest)).map Prod.fst).Nodup := by
        rw [← hdel]; exact syncMap.Delete_nodup k1 (hm ▸ hn)
      have hr1 : f k1 e1.inner = CallResult.returned :=
        hret (k1, e1) (List.mem_cons_self _ _) hx1
      have hstep : expireVisit eb k1 e1 w =
          Visit.more { w with m := done ++ (before ++ (k, e) :: rest),
                              expirations := w.expirations ++ [(k1, e1.inner)] } := by
        simp [expireVisit, hx1, syncMap.LoadAndDelete, hdel, hload, hf, hr1]
      rw [syncMap.Range, hstep]
      simp only
      rw [ih done k e rest
        { w with m := done ++ (before ++ (k, e) :: rest),
                 expirations := w.expirations ++ [(k1, e1.inner)] } rfl hn2 hf hret1 hx hp]
      simp [hx1]
    · have hstep : expireVisit eb k1 e1 w = Visit.more w := by
        simp [expireVisit, hx1]
      rw [syncMap.Range, hstep]
      simp only
      rw [ih (done ++ [(k1, e1)]) k e rest w (by simp [hm]) (by simpa using hn) hf hret1 hx hp]
      have hx2 : eb ≤ e1.created := not_lt.mp hx1
      simp [hx1, hx2, List.filter_cons]

theorem CleanNow_until_panic (now : Int) (w : World K V) (f : K → V → CallResult)
    (before : List (K × entry V)) (k : K) (e : entry V) (rest : List (K × entry V))
    (hm : w.m = before ++ (k, e) :: rest) (hwf : WF w) (hidle : w.cleaning = false)
    (h1 : minInt64 < w.timeout) (h2 : w.timeout ≤ maxInt64) (hf : w.expired = some f)
    (hret : ∀ p ∈ before, p.2.created < now - w.timeout →
      f p.1 p.2.inner = CallResult.returned)
    (hx : e.created < now - w.timeout) (hp : f k e.inner = CallResult.panicked) :
    CleanNow now w =
      ({ w with
          m := before.filter (fun p => decide (¬ p.2.created < now - w.timeout)) ++ rest,
          expirations := w.expirations ++
            ((before.filter (fun p => decide (p.2.created < now - w.timeout))).map
              (fun p => (p.1, p.2.inner)) ++ [(k, e.inner)]) },
        CallResult.panicked) := by
  rw [CleanNow_of_idle now w hidle, wrapInt64_neg_timeout h1 h2]
  have hcut : now + -w.timeout = now - w.timeout := by ring
  rw [hcut]
  have hn : (([] ++ (before ++ (k, e) :: rest)).map Prod.fst).Nodup := by
    unfold WF at hwf
    rw [hm] at hwf
    simpa using hwf
  have hr := Range_expireVisit_until_panic (now - w.timeout) f before [] k e rest
    { w with cleaning := true } (by simpa using hm) hn hf hret hx hp
  rw [← hm] at hr
  rw [hr]
  rcases w with ⟨⟨_, _, _, _, _⟩, _, _⟩
  simp_all

end SweepPanic

/-! ## A completed sweep, for any cut-off -/

section SweepCalls
variable {K V : Type}

theorem sweepCalls_of_all_fresh (w : World K V) (eb : Int) (l : List (K × entry V))
    (h : ∀ p ∈ l, ¬ p.2.created < eb) : sweepCalls w eb l = [] := by
  unfold sweepCalls
  split
  · rw [List.filter_eq_nil_iff.mpr (by
      intro p hp
      simpa using h p hp)]
    rfl
  · rfl

end SweepCalls

section CleanCutoff
variable {K V : Type} [DecidableEq K]

theorem CleanNow_complete_cutoff (now : Int) (w : World K V) (hwf : WF w)
    (hcb : CallbackReturns w) (hidle : w.cleaning = false) :
    CleanNow now w =
      ({ w with
          m := w.m.filter (fun p => decide (¬ p.2.created < now + wrapInt64 (-w.timeout))),
          expirations := w.expirations ++ sweepCalls w (now + wrapInt64 (-w.timeout)) w.m },
        CallResult.returned) := by
  rw [CleanNow_of_idle now w hidle]
  have hr := Range_expireVisit (now + wrapInt64 (-w.timeout)) w.m [] { w with cleaning := true }
    rfl (by simpa [WF] using hwf) (by intro f hf; exact hcb f hf)
  rw [hr]
  rcases w with ⟨⟨_, _, _, _, _⟩, _, _⟩
  simp_all [sweepCalls]

end CleanCutoff

/-! ## `Range` with a recording visitor -/

section Recording
variable {K V σ : Type}

theorem Range_recording (g : K → V → σ → Visit σ) :
    ∀ (l : List (K × entry V)) (s : σ) (log : List (K × V × Bool)),
      ∃ (called rest : List (K × entry V)) (new : List (K × V × Bool)),
        l = called ++ rest ∧
        (syncMap.Range (fun key value acc => recordingVisitor g key value.inner acc) l
          (s, log)).1.2 = log ++ new ∧
        new.map (fun c => (c.1, c.2.1)) = called.map (fun p => (p.1, p.2.inner)) ∧
        (∀ a c b, new = a ++ c :: b → c.2.2 = false → b = []) ∧
        ((∀ k v t, ∃ t1, g k v t = Visit.more t1) → rest = []) ∧
        (syncMap.Range (fun key value acc => recordingVisitor g key value.inner acc) l
          (s, log)).1.1 = (syncMap.Range (fun key value acc => g key value.inner acc) l s).1 ∧
        (syncMap.Range (fun key value acc => recordingVisitor g key value.inner acc) l
          (s, log)).2 = (syncMap.Range (fun key value acc => g key value.inner acc) l s).2 := by
  intro l
  induction l with
  | nil =>
    intro s log
    refine ⟨[], [], [], rfl, by simp [syncMap.Range], rfl, ?_, fun _ => rfl, rfl, rfl⟩
    intro a c b h
    exact absurd h (by simp)
  | cons p l ih =>
    intro s log
    obtain ⟨k, e⟩ := p
    cases hg : g k e.inner s with
    | more s1 =>
      obtain ⟨called, rest, new, h1, h2, h3, h4, h5, h6, h7⟩ :=
        ih s1 (log ++ [(k, e.inner, true)])
      have hstep : recordingVisitor g k e.inner (s, log) =
          Visit.more (s1, log ++ [(k, e.inner, true)]) := by
        simp [recordingVisitor, hg]
      refine ⟨(k, e) :: called, rest, (k, e.inner, true) :: new, ?_, ?_, ?_, ?_, h5, ?_, ?_⟩
      · rw [h1]; rfl
      · simp only [syncMap.Range, hstep]
        rw [h2]
        simp
      · simp [h3]
      · intro a c b hsplit hc
        cases a with
        | nil =>
          simp only [List.nil_append, List.cons.injEq] at hsplit
          rw [← hsplit.1] at hc
          exact absurd hc (by simp)
        | cons x a =>
          simp only [List.cons_append, List.cons.injEq] at hsplit
          exact h4 a c b hsplit.2 hc
      · simp only [syncMap.Range, hstep, hg]
        exact h6
      · simp only [syncMap.Range, hstep, hg]
        exact h7
    | stop s1 =>
      have hstep : recordingVisitor g k e.inner (s, log) =
          Visit.stop (s1, log ++ [(k, e.inner, false)]) := by
        simp [recordingVisitor, hg]
      refine ⟨[(k, e)], l, [(k, e.inner, false)], rfl, ?_, rfl, ?_, ?_, ?_, ?_⟩
      · simp only [syncMap.Range, hstep, hg]
      · intro a c b hsplit _
        cases a with
        | nil =>
          simp only [List.nil_append, List.cons.injEq] at hsplit
          exact hsplit.2.symm
        | cons x a =>
          simp at hsplit
      · intro hall
        obtain ⟨t1, ht1⟩ := hall k e.inner s
        rw [hg] at ht1
        exact Visit.noConfusion ht1
      · simp only [syncMap.Range, hstep, hg]
      · simp only [syncMap.Range, hstep, hg]
    | panic s1 =>
      have hstep : recordingVisitor g k e.inner (s, log) =
          Visit.panic (s1, log ++ [(k, e.inner, false)]) := by
        simp [recordingVisitor, hg]
      refine ⟨[(k, e)], l, [(k, e.inner, false)], rfl, ?_, rfl, ?_, ?_, ?_, ?_⟩
      · simp only [syncMap.Range, hstep, hg]
      · intro a c b hsplit _
        cases a with
        | nil =>
          simp only [List.nil_append, List.cons.injEq] at hsplit
          exact hsplit.2.symm
        | cons x a =>
          simp at hsplit
      · intro hall
        obtain ⟨t1, ht1⟩ := hall k e.inner s
        rw [hg] at ht1
        exact Visit.noConfusion ht1
      · simp only [syncMap.Range, hstep, hg]
      · simp only [syncMap.Range, hstep, hg]

end Recording

/-! ## `lastRun` along a run -/

section Trace
variable {K V : Type} [DecidableEq K]

theorem Op_apply_lastRun (now : Int) (op : Op K V) (w : World K V)
    (hnow : isInt64 now) (hnext : isInt64 (nextAllowed w)) :
    (op.apply now w).timeout = w.timeout ∧
    ((op.apply now w).lastRun = w.lastRun ∨
     (nextAllowed w < now ∧ (op.apply now w).lastRun = nextAllowed w)) := by
  cases op with
  | store key value =>
    obtain ⟨e1, e2⟩ := Write_apply_throttle now (Write.store key value) w hnow hnext
    refine ⟨e1, ?_⟩
    rcases e2 with ⟨e, -⟩ | ⟨hl, e, -⟩
    · exact Or.inl e
    · exact Or.inr ⟨hl, e⟩
  | loadOrStore key value =>
    obtain ⟨e1, e2⟩ := Write_apply_throttle now (Write.loadOrStore key value) w hnow hnext
    refine ⟨e1, ?_⟩
    rcases e2 with ⟨e, -⟩ | ⟨hl, e, -⟩
    · exact Or.inl e
    · exact Or.inr ⟨hl, e⟩
  | load key => exact ⟨rfl, Or.inl rfl⟩
  | delete key => exact ⟨rfl, Or.inl rfl⟩
  | loadAndDelete key =>
    have hst : (LoadAndDelete key w).2 = { w with m := syncMap.Delete w.m key } := by
      unfold LoadAndDelete
      simp only [syncMap.LoadAndDelete]
      split <;> rfl
    show (LoadAndDelete key w).2.timeout = w.timeout ∧
      ((LoadAndDelete key w).2.lastRun = w.lastRun ∨
        (nextAllowed w < now ∧ (LoadAndDelete key w).2.lastRun = nextAllowed w))
    rw [hst]
    exact ⟨rfl, Or.inl rfl⟩
  | cleanNow =>
    obtain ⟨i1, -, i3, -⟩ := CleanNow_frame now w
    exact ⟨i1, Or.inl i3⟩

theorem trace_lastRun (T : Int) (h0 : 0 ≤ T) (h1 : T ≤ maxInt64) :
    ∀ (ops : List (Int × Op K V)) (w : World K V),
      w.timeout = T → inClockRange w.lastRun → (∀ p ∈ ops, inClockRange p.1) →
      (w.lastRun :: ops.map Prod.fst).Pairwise (fun a b => a ≤ b) →
      (w.lastRun :: (trace ops w).map (fun p => p.2.lastRun)).Pairwise (fun a b => a ≤ b) ∧
      ∀ p ∈ trace ops w, p.2.lastRun ≤ p.1 := by
  intro ops
  induction ops with
  | nil =>
    intro w _ _ _ _
    simp [trace]
  | cons q rest ih =>
    intro w et hL hr hs
    obtain ⟨t, op⟩ := q
    have ht : inClockRange t := hr (t, op) (List.mem_cons_self _ _)
    have hrest : ∀ p ∈ rest, inClockRange p.1 := fun p hp => hr p (List.mem_cons_of_mem _ hp)
    simp only [List.map_cons, List.pairwise_cons, List.mem_cons, forall_eq_or_imp] at hs
    obtain ⟨⟨hwt, hwrest⟩, htrest, hpw⟩ := hs
    have hnext := isInt64_nextAllowed w (et ▸ h0) (et ▸ h1) hL
    obtain ⟨e1, e2⟩ := Op_apply_lastRun t op w (isInt64_of_inClockRange ht) hnext
    have hh : 0 ≤ Int.tdiv w.timeout 2 := Int.tdiv_nonneg (et ▸ h0) (by decide)
    have hbounds : w.lastRun ≤ (op.apply t w).lastRun ∧ (op.apply t w).lastRun ≤ t := by
      rcases e2 with e | ⟨hl, e⟩
      · rw [e]; exact ⟨le_refl _, hwt⟩
      · rw [e]
        unfold nextAllowed at hl ⊢
        omega
    have hL1 : inClockRange (op.apply t w).lastRun := by
      unfold inClockRange at hL ht ⊢
      omega
    have hs1 : ((op.apply t w).lastRun :: rest.map Prod.fst).Pairwise (fun a b => a ≤ b) := by
      simp only [List.pairwise_cons]
      exact ⟨fun x hx => le_trans hbounds.2 (htrest x hx), hpw⟩
    obtain ⟨i1, i2⟩ := ih (op.apply t w) (e1.trans et) hL1 hrest hs1
    simp only [List.pairwise_cons] at i1
    constructor
    · simp only [trace, List.map_cons, List.pairwise_cons, List.mem_cons, forall_eq_or_imp]
      exact ⟨⟨hbounds.1, fun x hx => le_trans hbounds.1 (i1.1 x hx)⟩, i1.1, i1.2⟩
    · intro p hp
      simp only [trace, List.mem_cons] at hp
      rcases hp with hp | hp
      · rw [hp]
        exact hbounds.2
      · exact i2 p hp

end Trace

/-! ## The default interval of a reaper -/

section ReaperInterval
variable {K V : Type}

theorem NewReaper_of_two_le (w : World K V) (h : 2 ≤ w.timeout) :
    0 < Int.tdiv w.timeout 2 ∧
    NewReaper w =
      some { ticker := { period := Int.tdiv w.timeout 2, running := true }, stop := false } := by
  have hpos : 0 < Int.tdiv w.timeout 2 := by
    rw [Int.tdiv_eq_ediv (by omega) (by decide)]
    omega
  refine ⟨hpos, ?_⟩
  unfold NewReaper NewReaperWithInterval NewTicker
  rw [if_neg (not_le.mpr hpos)]

theorem NewReaper_of_lt_two (w : World K V) (h : w.timeout < 2) : NewReaper w = none := by
  have hle : Int.tdiv w.timeout 2 ≤ 0 := by
    by_cases h0 : 0 ≤ w.timeout
    · rw [Int.tdiv_eq_ediv h0 (by decide)]
      omega
    · have hneg : 0 ≤ -w.timeout := by omega
      have h1 : Int.tdiv (-w.timeout) 2 = -(Int.tdiv w.timeout 2) := Int.neg_tdiv _ _
      have h2 := Int.tdiv_nonneg hneg (by decide : (0 : Int) ≤ 2)
      omega
  unfold NewReaper NewReaperWithInterval NewTicker
  rw [if_pos hle]

end ReaperInterval

/-! ## A sweep whose callback returns on the entries it removes -/

section SweepReturning
variable {K V : Type} [DecidableEq K]

theorem Range_expireVisit_of_returning (eb : Int) :
    ∀ (rest done : List (K × entry V)) (w : World K V),
      w.m = done ++ rest → ((done ++ rest).map Prod.fst).Nodup →
      (∀ f, w.expired = some f → ∀ p ∈ rest, p.2.created < eb →
        f p.1 p.2.inner = CallResult.returned) →
      syncMap.Range (expireVisit eb) rest w =
        ({ w with
            m := done ++ rest.filter (fun p => decide (¬ p.2.created < eb)),
            expirations := w.expirations ++ sweepCalls w eb rest },
          CallResult.returned) := by
  intro rest
  induction rest with
  | nil =>
    intro done w hm _ _
    rcases w with ⟨⟨_, x, _, _, _⟩, _, _⟩
    cases x <;> simp_all [syncMap.Range, sweepCalls]
  | cons p rest ih =>
    intro done w hm hn hret
    obtain ⟨k, e⟩ := p
    have hret1 : ∀ f, w.expired = some f → ∀ q ∈ rest, q.2.created < eb →
        f q.1 q.2.inner = CallResult.returned :=
      fun f hf q hq => hret f hf q (List.mem_cons_of_mem _ hq)
    by_cases hx : e.created < eb
    · have hdel : syncMap.Delete w.m k = done ++ rest := by
        rw [hm]; exact syncMap.Delete_append_cons hn
      have hload : syncMap.Load w.m k = some e := by
        rw [hm]; exact syncMap.Load_append_cons hn
      have hn2 : ((done ++ rest).map Prod.fst).Nodup := by
        rw [← hdel]; exact syncMap.Delete_nodup k (hm ▸ hn)
      cases hw : w.expired with
      | none =>
        have hstep : expireVisit eb k e w = Visit.more { w with m := done ++ rest } := by
          simp [expireVisit, hx, syncMap.LoadAndDelete, hdel, hload, hw]
        rw [syncMap.Range, hstep]
        simp only
        rw [ih done { w with m := done ++ rest } rfl hn2 (by intro f hf; exact hret1 f hf)]
        simp [sweepCalls, hw, hx]
      | some f =>
        have hr : f k e.inner = CallResult.returned :=
          hret f hw (k, e) (List.mem_cons_self _ _) hx
        have hstep : expireVisit eb k e w =
            Visit.more { w with m := done ++ rest,
                                expirations := w.expirations ++ [(k, e.inner)] } := by
          simp [expireVisit, hx, syncMap.LoadAndDelete, hdel, hload, hw, hr]
        rw [syncMap.Range, hstep]
        simp only
        rw [ih done { w with m := done ++ rest,
                             expirations := w.expirations ++ [(k, e.inner)] } rfl hn2
          (by intro g hg; exact hret1 g hg)]
        simp [sweepCalls, hw, hx]
    · have hstep : expireVisit eb k e w = Visit.more w := by
        simp [expireVisit, hx]
      rw [syncMap.Range, hstep]
      simp only
      rw [ih (done ++ [(k, e)]) w (by simp [hm]) (by simpa using hn) hret1]
      have hx2 : eb ≤ e.created := not_lt.mp hx
      cases hw : w.expired <;> simp [sweepCalls, hw, hx, hx2, List.filter_cons]

theorem Range_expireVisit_returned_only_if (eb : Int) :
    ∀ (rest done : List (K × entry V)) (w : World K V),
      w.m = done ++ rest → ((done ++ rest).map Prod.fst).Nodup →
      (syncMap.Range (expireVisit eb) rest w).2 = CallResult.returned →
      ∀ f, w.expired = some f → ∀ p ∈ rest, p.2.created < eb →
        f p.1 p.2.inner = CallResult.returned := by
  intro rest
  induction rest with
  | nil =>
    intro done w _ _ _ f _ p hp
    exact absurd hp (List.not_mem_nil p)
  | cons q rest ih =>
    intro done w hm hn hout f hf p hp hpx
    obtain ⟨k, e⟩ := q
    by_cases hx : e.created < eb
    · have hdel : syncMap.Delete w.m k = done ++ rest := by
        rw [hm]; exact syncMap.Delete_append_cons hn
      have hload : syncMap.Load w.m k = some e := by
        rw [hm]; exact syncMap.Load_append_cons hn
      have hn2 : ((done ++ rest).map Prod.fst).Nodup := by
        rw [← hdel]; exact syncMap.Delete_nodup k (hm ▸ hn)
      cases hr : f k e.inner with
      | panicked =>
        have hstep : expireVisit eb k e w =
            Visit.panic { w with m := done ++ rest,
                                 expirations := w.expirations ++ [(k, e.inner)] } := by
          simp [expireVisit, hx, syncMap.LoadAndDelete, hdel, hload, hf, hr]
        rw [syncMap.Range, hstep] at hout
        exact CallResult.noConfusion hout
      | returned =>
        have hstep : expireVisit eb k e w =
            Visit.more { w with m := done ++ rest,
                                expirations := w.expirations ++ [(k, e.inner)] } := by
          simp [expireVisit, hx, syncMap.LoadAndDelete, hdel, hload, hf, hr]
        rw [syncMap.Range, hstep] at hout
        rcases List.mem_cons.mp hp with h | h
        · rw [h]
          exact hr
        · exact ih done { w with m := done ++ rest,
                                 expirations := w.expirations ++ [(k, e.inner)] } rfl hn2 hout
            f hf p h hpx
    · have hstep : expireVisit eb k e w = Visit.more w := by
        simp [expireVisit, hx]
      rw [syncMap.Range, hstep] at hout
      rcases List.mem_cons.mp hp with h | h
      · rw [h] at hpx
        exact absurd hpx hx
      · exact ih (done ++ [(k, e)]) w (by simp [hm]) (by simpa using hn) hout f hf p h hpx

theorem CleanNow_returned_iff (now : Int) (w : World K V) (hwf : WF w)
    (hidle : w.cleaning = false) :
    (CleanNow now w).2 = CallResult.returned ↔
      ∀ f, w.expired = some f → ∀ p ∈ w.m, p.2.created < now + wrapInt64 (-w.timeout) →
        f p.1 p.2.inner = CallResult.returned := by
  rw [CleanNow_of_idle now w hidle]
  constructor
  · intro hout
    exact Range_expireVisit_returned_only_if (now + wrapInt64 (-w.timeout)) w.m []
      { w with cleaning := true } rfl (by simpa [WF] using hwf) hout
  · intro hret
    have hr := Range_expireVisit_of_returning (now + wrapInt64 (-w.timeout)) w.m []
      { w with cleaning := true } rfl (by simpa [WF] using hwf) hret
    simp only [hr]

theorem CleanNow_of_returned (now : Int) (w : World K V) (hwf : WF w)
    (hidle : w.cleaning = false) (hout : (CleanNow now w).2 = CallResult.returned) :
    CleanNow now w =
      ({ w with
          m := w.m.filter (fun p => decide (¬ p.2.created < now + wrapInt64 (-w.timeout))),
          expirations := w.expirations ++ sweepCalls w (now + wrapInt64 (-w.timeout)) w.m },
        CallResult.returned) := by
  have hret := (CleanNow_returned_iff now w hwf hidle).mp hout
  rw [CleanNow_of_idle now w hidle]
  have hr := Range_expireVisit_of_returning (now + wrapInt64 (-w.timeout)) w.m []
    { w with cleaning := true } rfl (by simpa [WF] using hwf) hret
  rw [hr]
  rcases w with ⟨⟨_, _, _, _, _⟩, _, _⟩
  simp_all [sweepCalls]

end SweepReturning

/-! ## States reached from `New` -/

section Reached
variable {K V : Type}

theorem New_expired (now timeout : Int) (fs : List (K → V → CallResult))
    (f : K → V → CallResult) :
    (New now timeout ((fs ++ [f]).map WithExpirationCallback)).expired = some f := by
  unfold New
  rw [List.map_append, List.foldl_append]
  rfl

end Reached

section ReachedOps
variable {K V : Type} [DecidableEq K]

theorem LoadOrStore_frame (now : Int) (key : K) (value : V) (w : World K V) :
    (LoadOrStore now key value w).2.timeout = w.timeout ∧
    (LoadOrStore now key value w).2.expired = w.expired ∧
    (LoadOrStore now key value w).2.cleaning = w.cleaning ∧
    (LoadOrStore now key value w).2.expirations = w.expirations := by
  unfold LoadOrStore
  simp only
  split
  · exact ⟨rfl, rfl, rfl, rfl⟩
  · obtain ⟨-, h2, h3, h4, h5⟩ := hit_frame now
      { w with m := (syncMap.LoadOrStore w.m key { inner := value, created := now }).2 }
    exact ⟨h2, h3, h4, h5⟩

theorem LoadAndDelete_state (key : K) (w : World K V) :
    (LoadAndDelete key w).2 = { w with m := syncMap.Delete w.m key } := by
  unfold LoadAndDelete
  simp only [syncMap.LoadAndDelete]
  split <;> rfl

theorem CleanNow_cleaning (now : Int) (w : World K V) (h : w.cleaning = false) :
    (CleanNow now w).1.cleaning = false := by
  rw [CleanNow_of_idle now w h]

theorem Op_apply_keeps (now : Int) (op : Op K V) (w : World K V) :
    (op.apply now w).timeout = w.timeout ∧ (op.apply now w).expired = w.expired ∧
    (w.cleaning = false → (op.apply now w).cleaning = false) ∧
    (WF w → WF (op.apply now w)) := by
  cases op with
  | store key value =>
    obtain ⟨-, h2, h3, h4, -⟩ := hit_frame now
      { w with m := syncMap.Store w.m key { inner := value, created := now } }
    exact ⟨h2, h3, fun h => h4.trans h, Store_WF now key value w⟩
  | loadOrStore key value =>
    obtain ⟨h1, h2, h3, -⟩ := LoadOrStore_frame now key value w
    exact ⟨h1, h2, fun h => h3.trans h, LoadOrStore_WF now key value w⟩
  | load key => exact ⟨rfl, rfl, id, id⟩
  | delete key => exact ⟨rfl, rfl, id, Delete_WF key w⟩
  | loadAndDelete key =>
    show (LoadAndDelete key w).2.timeout = w.timeout ∧
      (LoadAndDelete key w).2.expired = w.expired ∧
      (w.cleaning = false → (LoadAndDelete key w).2.cleaning = false) ∧
      (WF w → WF (LoadAndDelete key w).2)
    refine ⟨?_, ?_, ?_, LoadAndDelete_WF key w⟩
    · rw [LoadAndDelete_state]
    · rw [LoadAndDelete_state]
    · intro h
      rw [LoadAndDelete_state]
      exact h
  | cleanNow =>
    obtain ⟨i1, i2, -, -⟩ := CleanNow_frame now w
    exact ⟨i1, i2, CleanNow_cleaning now w, CleanNow_WF now w⟩

theorem runOps_keeps :
    ∀ (ops : List (Int × Op K V)) (w : World K V),
      (runOps ops w).timeout = w.timeout ∧ (runOps ops w).expired = w.expired ∧
      (w.cleaning = false → (runOps ops w).cleaning = false) ∧
      (WF w → WF (runOps ops w)) := by
  intro ops
  induction ops with
  | nil => intro w; exact ⟨rfl, rfl, id, id⟩
  | cons q rest ih =>
    intro w
    obtain ⟨now, op⟩ := q
    obtain ⟨s1, s2, s3, s4⟩ := Op_apply_keeps now op w
    obtain ⟨i1, i2, i3, i4⟩ := ih (op.apply now w)
    exact ⟨i1.trans s1, i2.trans s2, fun h => i3 (s3 h), fun h => i4 (s4 h)⟩

theorem reached_from_New (t0 T : Int) (fs : List (K → V → CallResult))
    (f : K → V → CallResult) (ops : List (Int × Op K V)) :
    (runOps ops (World.ofMap (New t0 T ((fs ++ [f]).map WithExpirationCallback)))).timeout = T ∧
    (runOps ops (World.ofMap (New t0 T ((fs ++ [f]).map WithExpirationCallback)))).expired =
      some f ∧
    (runOps ops (World.ofMap (New t0 T ((fs ++ [f]).map WithExpirationCallback)))).cleaning =
      false ∧
    WF (runOps ops (World.ofMap (New t0 T ((fs ++ [f]).map WithExpirationCallback)))) := by
  obtain ⟨i1, i2, i3, i4⟩ :=
    runOps_keeps ops (World.ofMap (New t0 T ((fs ++ [f]).map WithExpirationCallback)))
  obtain ⟨n1, -, n3, -⟩ := New_fields (K := K) (V := V) t0 T (fs ++ [f])
  exact ⟨i1.trans n1, i2.trans (New_expired t0 T fs f), i3 n3,
    i4 (New_WF t0 T (fs ++ [f]))⟩

end ReachedOps

/-! ## A returning sweep, with the cut-off `now - timeout` -/

section ReturnedBounded
variable {K V : Type} [DecidableEq K]

theorem CleanNow_of_returned_bounded (now : Int) (w : World K V) (hwf : WF w)
    (hidle : w.cleaning = false) (h1 : minInt64 < w.timeout) (h2 : w.timeout ≤ maxInt64)
    (hout : (CleanNow now w).2 = CallResult.returned) :
    CleanNow now w =
      ({ w with
          m := w.m.filter (fun p => decide (¬ p.2.created < now - w.timeout)),
          expirations := w.expirations ++ sweepCalls w (now - w.timeout) w.m },
        CallResult.returned) := by
  have h := CleanNow_of_returned now w hwf hidle hout
  have hcut : now + wrapInt64 (-w.timeout) = now - w.timeout := by
    rw [wrapInt64_neg_timeout h1 h2]
    ring
  rw [hcut] at h
  exact h

theorem CleanNow_returned_iff_bounded (now : Int) (w : World K V) (hwf : WF w)
    (hidle : w.cleaning = false) (h1 : minInt64 < w.timeout) (h2 : w.timeout ≤ maxInt64) :
    (CleanNow now w).2 = CallResult.returned ↔
      ∀ f, w.expired = some f → ∀ p ∈ expiredEntries now w,
        f p.1 p.2.inner = CallResult.returned := by
  have hcut : now + wrapInt64 (-w.timeout) = now - w.timeout := by
    rw [wrapInt64_neg_timeout h1 h2]
    ring
  rw [CleanNow_returned_iff now w hwf hidle, hcut]
  constructor
  · intro h f hf p hp
    obtain ⟨hpm, hpx⟩ := List.mem_filter.mp hp
    exact h f hf p hpm (by simpa using hpx)
  · intro h f hf p hpm hpx
    exact h f hf p (List.mem_filter.mpr ⟨hpm, by simpa using hpx⟩)

theorem launchReadings_mem :
    ∀ (ws : List (Int × Write K V)) (w : World K V) (t : Int),
      t ∈ launchReadings ws w → ∃ p ∈ ws, p.1 = t := by
  intro ws
  induction ws with
  | nil => intro w t h; simp [launchReadings] at h
  | cons q rest ih =>
    intro w t h
    obtain ⟨now, op⟩ := q
    simp only [launchReadings] at h
    split at h
    · obtain ⟨p, hp, e⟩ := ih _ t h
      exact ⟨p, List.mem_cons_of_mem _ hp, e⟩
    · rcases List.mem_cons.mp h with h | h
      · exact ⟨(now, op), List.mem_cons_self _ _, h.symm⟩
      · obtain ⟨p, hp, e⟩ := ih _ t h
        exact ⟨p, List.mem_cons_of_mem _ hp, e⟩

end ReturnedBounded

/-! ## The schedule of the launches -/

section LaunchSchedule
variable {K V : Type} [DecidableEq K]

theorem launch_schedule (ws : List (Int × Write K V)) (w0 : World K V)
    (hT0 : 0 < w0.timeout) (hT1 : w0.timeout ≤ maxInt64) (hL : inClockRange w0.lastRun)
    (hws : ∀ p ∈ ws, inClockRange p.1) :
    (runWrites ws w0).lastRun =
      w0.lastRun + ((launchReadings ws w0).length : Int) * Int.tdiv w0.timeout 2 ∧
    (runWrites ws w0).goroutines = w0.goroutines + (launchReadings ws w0).length ∧
    ∀ (i : Nat) (t : Int), (launchReadings ws w0)[i]? = some t →
      w0.lastRun + ((i : Int) + 1) * Int.tdiv w0.timeout 2 < t := by
  induction ws generalizing w0 with
  | nil =>
    simp [runWrites, launchReadings]
  | cons p rest ih =>
    obtain ⟨now, op⟩ := p
    have hnow : inClockRange now := hws (now, op) (List.mem_cons_self _ _)
    have hnext := isInt64_nextAllowed w0 (le_of_lt hT0) hT1 hL
    obtain ⟨et, hstep⟩ := Write_apply_throttle now op w0 (isInt64_of_inClockRange hnow) hnext
    have hrest : ∀ q ∈ rest, inClockRange q.1 := fun q hq => hws q (List.mem_cons_of_mem _ hq)
    have hh : 0 ≤ Int.tdiv w0.timeout 2 := Int.tdiv_nonneg (le_of_lt hT0) (by decide)
    rcases hstep with ⟨e1, e2⟩ | ⟨hlt, e1, e2⟩
    · obtain ⟨i1, i2, i3⟩ := ih (op.apply now w0) (et ▸ hT0) (et ▸ hT1) (e1 ▸ hL) hrest
      have hlr : launchReadings ((now, op) :: rest) w0 =
          launchReadings rest (op.apply now w0) := by
        simp [launchReadings, e2]
      rw [hlr]
      simp only [runWrites]
      rw [et, e1] at i1
      rw [e2] at i2
      refine ⟨i1, i2, ?_⟩
      intro i t hi
      have := i3 i t hi
      rw [et, e1] at this
      exact this
    · have hL1 : inClockRange (op.apply now w0).lastRun := by
        rw [e1]
        unfold inClockRange at hL hnow ⊢
        unfold nextAllowed at hlt ⊢
        omega
      obtain ⟨i1, i2, i3⟩ := ih (op.apply now w0) (et ▸ hT0) (et ▸ hT1) hL1 hrest
      have hlr : launchReadings ((now, op) :: rest) w0 =
          now :: launchReadings rest (op.apply now w0) := by
        simp [launchReadings, e2]
      rw [hlr]
      simp only [runWrites]
      rw [et, e1] at i1
      rw [e2] at i2
      unfold nextAllowed at i1 hlt
      refine ⟨?_, ?_, ?_⟩
      · rw [i1]
        simp only [List.length_cons, Nat.cast_add, Nat.cast_one]
        ring
      · rw [i2]
        simp only [List.length_cons]
        omega
      · intro i t hi
        cases i with
        | zero =>
          simp only [List.getElem?_cons_zero, Option.some.injEq] at hi
          subst hi
          simpa using hlt
        | succ j =>
          simp only [List.getElem?_cons_succ] at hi
          have := i3 j t hi
          rw [et, e1] at this
          unfold nextAllowed at this
          have hr : ((j + 1 : Nat) : Int) + 1 = ((j : Int) + 1) + 1 := by push_cast; ring
          rw [hr]
          linarith

end LaunchSchedule

/-! ## A timeout of one nanosecond does not throttle -/

theorem tiny_timeout_launches_every_write :
    Int.tdiv tinyWorld.timeout 2 = 0 ∧
    launchReadings sixWrites tinyWorld = [1, 1, 1, 1, 1, 1] ∧
    (runWrites sixWrites tinyWorld).lastRun = tinyWorld.lastRun := by
  decide

/-! ## The claims -/

section Claims
variable {K V : Type} [DecidableEq K]

theorem Load_filter_of_pos {E : Type} (p : K × E → Bool) :
    ∀ (l : List (K × E)) (key : K) (a : E), syncMap.Load l key = some a → p (key, a) = true →
      syncMap.Load (l.filter p) key = some a := by
  intro l
  induction l with
  | nil => intro key a h; simp [syncMap.Load] at h
  | cons q rest ih =>
    intro key a h hp
    obtain ⟨k, e⟩ := q
    by_cases hk : k = key
    · subst hk
      simp only [syncMap.Load, if_true] at h
      injection h with h
      subst h
      rw [List.filter_cons_of_pos hp]
      simp [syncMap.Load]
    · simp only [syncMap.Load, if_neg hk] at h
      cases hq : p (k, e) with
      | true =>
        rw [List.filter_cons_of_pos hq]
        simp only [syncMap.Load, if_neg hk]
        exact ih key a h hp
      | false =>
        rw [List.filter_cons_of_neg (by simp [hq])]
        exact ih key a h hp

theorem Load_filter_of_neg {E : Type} (p : K × E → Bool) (l : List (K × E)) (key : K) (a : E)
    (hn : (l.map Prod.fst).Nodup) (h : syncMap.Load l key = some a) (hp : p (key, a) = false) :
    syncMap.Load (l.filter p) key = none := by
  rw [syncMap.Load_eq_none_iff]
  intro hmem
  obtain ⟨q, hq, hk⟩ := List.mem_map.mp hmem
  obtain ⟨hql, hqp⟩ := List.mem_filter.mp hq
  obtain ⟨k, e⟩ := q
  simp only at hk
  subst hk
  have := syncMap.Load_of_mem hn hql
  rw [h] at this
  injection this with this
  subst this
  rw [hp] at hqp
  exact Bool.noConfusion hqp

theorem Load_of_store_none (key : K) (w : World K V) (h : syncMap.Load w.m key = none) :
    Load key w = none := by
  simp [Load, h]

theorem Load_of_store_some (key : K) (w : World K V) (a : entry V)
    (h : syncMap.Load w.m key = some a) : Load key w = some a.inner := by
  simp [Load, h]

/-- C1, as the code has it: a `CleanNow` call made while no sweep is in progress returns
normally exactly when the callback, if there is one, returns on every expired entry, and a
call that returns normally keeps exactly the entries whose creation time is not before
`now - timeout`: the store becomes the old store filtered by `now - timeout ≤ created`, so an
entry created strictly before the cut-off is gone, any other entry (the one created exactly at
the cut-off included) is still there with its value and creation time, and a reaper tick,
which is such a call without any write, removes a key stored more than `timeout` ago. -/
theorem CleanNow_removes_exactly_expired (now : Int) (w : World K V)
    (hwf : WF w) (hidle : w.cleaning = false)
    (h1 : minInt64 < w.timeout) (h2 : w.timeout ≤ maxInt64) :
    ((CleanNow now w).2 = CallResult.returned ↔
      ∀ f, w.expired = some f → ∀ p ∈ expiredEntries now w,
        f p.1 p.2.inner = CallResult.returned) ∧
    ((CleanNow now w).2 = CallResult.returned →
      (CleanNow now w).1.m = w.m.filter (fun p => decide (now - w.timeout ≤ p.2.created)) ∧
      (∀ key a, syncMap.Load w.m key = some a → a.created < now - w.timeout →
        Load key (CleanNow now w).1 = none) ∧
      (∀ key a, syncMap.Load w.m key = some a → now - w.timeout ≤ a.created →
        syncMap.Load (CleanNow now w).1.m key = some a) ∧
      (∀ key, syncMap.Load w.m key = none → Load key (CleanNow now w).1 = none) ∧
      (∀ key a, syncMap.Load w.m key = some a → a.created < now - w.timeout →
        Load key (Reaper.run CleanNow [ReaperEvent.tick now] w).1 = none)) := by
  refine ⟨CleanNow_returned_iff_bounded now w hwf hidle h1 h2, ?_⟩
  intro hout
  have hc := CleanNow_of_returned_bounded now w hwf hidle h1 h2 hout
  have hm : (CleanNow now w).1.m =
      w.m.filter (fun p => decide (now - w.timeout ≤ p.2.created)) := by
    rw [hc]
    simp
  have hgone : ∀ key a, syncMap.Load w.m key = some a → a.created < now - w.timeout →
      Load key (CleanNow now w).1 = none := by
    intro key a hl hx
    apply Load_of_store_none
    rw [hm]
    exact Load_filter_of_neg _ w.m key a hwf hl (decide_eq_false (not_le.mpr hx))
  refine ⟨hm, hgone, ?_, ?_, ?_⟩
  · intro key a hl hx
    rw [hm]
    exact Load_filter_of_pos _ w.m key a hl (decide_eq_true hx)
  · intro key hl
    apply Load_of_store_none
    rw [hm, syncMap.Load_eq_none_iff]
    intro hmem
    have hsub : List.Sublist
        ((w.m.filter (fun p => decide (now - w.timeout ≤ p.2.created))).map Prod.fst)
        (w.m.map Prod.fst) := (List.filter_sublist w.m).map Prod.fst
    exact (syncMap.Load_eq_none_iff w.m key).mp hl (hsub.subset hmem)
  · intro key a hl hx
    have hrun : Reaper.run CleanNow [ReaperEvent.tick now] w = CleanNow now w := by
      simp only [Reaper.run]
      rw [hc]
    rw [hrun]
    exact hgone key a hl hx

theorem sampleWorld_callbackReturns : CallbackReturns sampleWorld := by
  intro f hf k v
  simp only [sampleWorld, Option.some.injEq] at hf
  subst hf
  rfl

/-- C1 at `sampleWorld`, swept at reading 15: the call returns, the entry created at 0 goes,
the entries created at 5 (the cut-off) and at 20 stay. -/
theorem CleanNow_removes_exactly_expired_witness :
    (CleanNow 15 sampleWorld).2 = CallResult.returned ∧
    (CleanNow 15 sampleWorld).1.m =
      [(2, { inner := 200, created := 5 }), (3, { inner := 300, created := 20 })] :=
  ⟨by decide,
    ((CleanNow_removes_exactly_expired 15 sampleWorld (by decide) rfl (by decide)
      (by decide)).2 (by decide)).1.trans (by decide)⟩

/-- C1 as written fails: `builtFaultyWorld` is reached from `New` by two `Store` calls, no
sweep is in progress, and key 2, created at 0, is expired at reading 50 (timeout 10); the
callback panics on key 1, which the scan visits first, so `CleanNow` at 50 leaves key 2 in
the store. -/
theorem CleanNow_leaves_expired_counterexample :
    WF builtFaultyWorld ∧ builtFaultyWorld.cleaning = false ∧
    syncMap.Load builtFaultyWorld.m 2 = some { inner := 200, created := 0 } ∧
    (0 : Int) < 50 - builtFaultyWorld.timeout ∧
    Load 2 (CleanNow 50 builtFaultyWorld).1 = some 200 ∧
    (CleanNow 50 builtFaultyWorld).1.m ≠
      builtFaultyWorld.m.filter (fun p => decide (50 - builtFaultyWorld.timeout ≤ p.2.created))
    := by
  decide

/-- C2, as the code has it: on a map built by `New` with an expiration callback `f`, in any
state reached by a run of operations, the callback of the map is `f`, and a `CleanNow` call
that returns normally appends to the callback's calls exactly one call per expired entry,
with that entry's key and value: N calls for N expired entries, each of them for an entry the
scan removed, no two for the same key, and none for a key of an entry the scan keeps.
`Delete` and `LoadAndDelete` add no call. -/
theorem CleanNow_calls_callback_once_per_removed (T t0 now : Int)
    (fs : List (K → V → CallResult)) (f : K → V → CallResult) (ops : List (Int × Op K V))
    (w : World K V)
    (hw : w = runOps ops (World.ofMap (New t0 T ((fs ++ [f]).map WithExpirationCallback)))) :
    w.expired = some f ∧ w.cleaning = false ∧
    (minInt64 < T → T ≤ maxInt64 → (CleanNow now w).2 = CallResult.returned →
      (CleanNow now w).1.expirations =
        w.expirations ++ (expiredEntries now w).map (fun p => (p.1, p.2.inner)) ∧
      (CleanNow now w).1.expirations.length =
        w.expirations.length + (expiredEntries now w).length ∧
      (∀ p ∈ expiredEntries now w, p ∈ w.m ∧ p ∉ (CleanNow now w).1.m) ∧
      ((expiredEntries now w).map Prod.fst).Nodup ∧
      (∀ p ∈ (CleanNow now w).1.m, p.1 ∉ (expiredEntries now w).map Prod.fst)) ∧
    (∀ key, (Delete key w).expirations = w.expirations) ∧
    (∀ key, (LoadAndDelete key w).2.expirations = w.expirations) := by
  obtain ⟨ht, hf, hidle, hwf⟩ := reached_from_New t0 T fs f ops
  rw [← hw] at ht hf hidle hwf
  refine ⟨hf, hidle, ?_, fun _ => rfl, ?_⟩
  · intro h1 h2 hout
    have hc := CleanNow_of_returned_bounded now w hwf hidle (ht ▸ h1) (ht ▸ h2) hout
    have hm : (CleanNow now w).1.m =
        w.m.filter (fun p => decide (¬ p.2.created < now - w.timeout)) := by
      rw [hc]
    have he : (CleanNow now w).1.expirations =
        w.expirations ++ (expiredEntries now w).map (fun p => (p.1, p.2.inner)) := by
      rw [hc]
      simp [sweepCalls, hf, expiredEntries]
    refine ⟨he, ?_, ?_, ?_, ?_⟩
    · rw [he]
      simp
    · intro p hp
      obtain ⟨hpm, hpx⟩ := List.mem_filter.mp hp
      refine ⟨hpm, ?_⟩
      rw [hm]
      intro hc2
      have := (List.mem_filter.mp hc2).2
      simp only [decide_eq_true_eq] at hpx this
      exact this hpx
    · exact hwf.sublist ((List.filter_sublist w.m).map Prod.fst)
    · intro p hp hkey
      rw [hm] at hp
      obtain ⟨hpm, hpx⟩ := List.mem_filter.mp hp
      obtain ⟨q, hq, hqk⟩ := List.mem_map.mp hkey
      obtain ⟨hqm, hqx⟩ := List.mem_filter.mp hq
      have e1 := syncMap.Load_of_mem hwf hpm
      have e2 := syncMap.Load_of_mem hwf hqm
      rw [hqk, e1] at e2
      injection e2 with e2
      simp only [decide_eq_true_eq] at hpx hqx
      rw [e2] at hpx
      exact hpx hqx
  · intro key
    rw [LoadAndDelete_state]

/-- C2 at `builtQuietWorld`, a map built with `quietCallback` and swept at reading 15: one
expired entry, one call, with its key and value. -/
theorem CleanNow_calls_callback_once_per_removed_witness :
    (CleanNow 15 builtQuietWorld).1.expirations = [(1, 100)] :=
  ((CleanNow_calls_callback_once_per_removed 10 0 15 [] quietCallback
    [(0, Op.store 1 100), (5, Op.store 2 200), (12, Op.store 3 300)] builtQuietWorld rfl).2.2.1
    (by decide) (by decide) (by decide)).1.trans (by decide)

/-- C2 as written fails: `builtFaultyWorld` is built by `New` with a callback and holds two
entries expired at reading 50; `CleanNow` at 50 performs the scan and the callback is called
once, on key 1, where it panics. -/
theorem CleanNow_calls_once_counterexample :
    builtFaultyWorld.expired.isSome = true ∧ builtFaultyWorld.cleaning = false ∧
    (expiredEntries 50 builtFaultyWorld).length = 2 ∧
    (CleanNow 50 builtFaultyWorld).1.expirations = builtFaultyWorld.expirations ++ [(1, 100)] ∧
    (CleanNow 50 builtFaultyWorld).1.expirations.length ≠
      builtFaultyWorld.expirations.length + (expiredEntries 50 builtFaultyWorld).length := by
  decide

/-- C3, as the code has it: with int64 readings and no overflow of `lastRun + timeout/2`, the
check run by `Store` and by an inserting `LoadOrStore` launches a sweep and sets `lastRun` to
`nextAllowed` if and only if `nextAllowed < now`, strictly; at `now = nextAllowed` and before
it, it launches nothing and leaves `lastRun` unchanged. -/
theorem throttle_launches_iff_strictly_past (now : Int) (key : K) (value : V) (w : World K V)
    (hnow : isInt64 now) (hnext : isInt64 (nextAllowed w)) :
    (((Store now key value w).goroutines = w.goroutines + 1 ∧
        (Store now key value w).lastRun = nextAllowed w) ↔ nextAllowed w < now) ∧
    (now ≤ nextAllowed w →
      (Store now key value w).goroutines = w.goroutines ∧
      (Store now key value w).lastRun = w.lastRun) ∧
    (syncMap.Load w.m key = none →
      ((((LoadOrStore now key value w).2.goroutines = w.goroutines + 1 ∧
          (LoadOrStore now key value w).2.lastRun = nextAllowed w) ↔ nextAllowed w < now) ∧
       (now ≤ nextAllowed w →
          (LoadOrStore now key value w).2.goroutines = w.goroutines ∧
          (LoadOrStore now key value w).2.lastRun = w.lastRun))) := by
  have key1 : ∀ w1 : World K V, w1.lastRun = w.lastRun → w1.timeout = w.timeout →
      w1.goroutines = w.goroutines →
      ((((hit now w1).goroutines = w.goroutines + 1 ∧ (hit now w1).lastRun = nextAllowed w) ↔
          nextAllowed w < now) ∧
        (now ≤ nextAllowed w →
          (hit now w1).goroutines = w.goroutines ∧ (hit now w1).lastRun = w.lastRun)) := by
    intro w1 e1 e2 e3
    have hn : nextAllowed w1 = nextAllowed w := by simp [nextAllowed, e1, e2]
    constructor
    · constructor
      · intro hl
        by_contra hc
        rw [hit_of_not_past now w1 hnow (hn ▸ hnext) (hn ▸ not_lt.mp hc)] at hl
        omega
      · intro hl
        rw [hit_of_past now w1 hnow (hn ▸ hnext) (hn ▸ hl)]
        simp [e3, hn]
    · intro hl
      rw [hit_of_not_past now w1 hnow (hn ▸ hnext) (hn ▸ hl)]
      exact ⟨e3, e1⟩
  have hst := key1 { w with m := syncMap.Store w.m key { inner := value, created := now } }
    rfl rfl rfl
  refine ⟨hst.1, hst.2, ?_⟩
  intro habs
  have hlo : (LoadOrStore now key value w).2 =
      hit now { w with m := (key, { inner := value, created := now }) :: w.m } := by
    simp [LoadOrStore, syncMap.LoadOrStore, habs]
  rw [hlo]
  exact key1 _ rfl rfl rfl

/-- C3 at `sampleWorld` (`lastRun = 0`, `timeout = 10`): a `Store` at reading 6, just past
`nextAllowed = 5`, launches a sweep and moves `lastRun` to 5. -/
theorem throttle_launches_iff_strictly_past_witness :
    (Store 6 7 7 sampleWorld).goroutines = sampleWorld.goroutines + 1 ∧
    (Store 6 7 7 sampleWorld).lastRun = nextAllowed sampleWorld :=
  (throttle_launches_iff_strictly_past 6 7 7 sampleWorld (by decide) (by decide)).1.mpr
    (by decide)

/-- C3 as written fails at the boundary: in `sampleWorld`, `nextAllowed = 5`, and a `Store`
at reading 5 (so `now >= nextAllowed`) launches no sweep and leaves `lastRun` at 0. -/
theorem throttle_boundary_counterexample :
    nextAllowed sampleWorld = 5 ∧
    (Store 5 7 7 sampleWorld).goroutines = sampleWorld.goroutines ∧
    (Store 5 7 7 sampleWorld).lastRun = sampleWorld.lastRun ∧
    ¬ (((Store 5 7 7 sampleWorld).goroutines = sampleWorld.goroutines + 1 ∧
          (Store 5 7 7 sampleWorld).lastRun = nextAllowed sampleWorld) ↔
        5 ≥ nextAllowed sampleWorld) := by
  decide

/-- C4, as the code has it: on a map with a positive timeout, every write that launches a
sweep advances `lastRun` by exactly `timeout/2`, to a value strictly below the reading of that
write.  So after a sequence of writes `lastRun` has advanced by `timeout/2` per launch, the
launch number `i + 1` happens at a reading later than the initial `lastRun` plus
`(i + 1) * (timeout/2)`, and `n` launches made at readings up to `tmax` satisfy
`lastRun + n * (timeout/2) < tmax`; for a timeout of at least 2 this bounds their number by
`(tmax - lastRun) / (timeout/2)`.  The throttle spaces the values of `lastRun`, not the
readings of the launching writes. -/
theorem throttle_bounds_launch_count (ws : List (Int × Write K V)) (w0 : World K V)
    (hT0 : 0 < w0.timeout) (hT1 : w0.timeout ≤ maxInt64) (hL : inClockRange w0.lastRun)
    (hws : ∀ p ∈ ws, inClockRange p.1) :
    (runWrites ws w0).lastRun =
      w0.lastRun + ((launchReadings ws w0).length : Int) * Int.tdiv w0.timeout 2 ∧
    (runWrites ws w0).goroutines = w0.goroutines + (launchReadings ws w0).length ∧
    (∀ (i : Nat) (t : Int), (launchReadings ws w0)[i]? = some t →
      w0.lastRun + ((i : Int) + 1) * Int.tdiv w0.timeout 2 < t) ∧
    (∀ tmax : Int, (∀ p ∈ ws, p.1 ≤ tmax) → launchReadings ws w0 ≠ [] →
      w0.lastRun + ((launchReadings ws w0).length : Int) * Int.tdiv w0.timeout 2 < tmax) ∧
    (2 ≤ w0.timeout → ∀ tmax : Int, (∀ p ∈ ws, p.1 ≤ tmax) → w0.lastRun ≤ tmax →
      ((launchReadings ws w0).length : Int) ≤ (tmax - w0.lastRun) / Int.tdiv w0.timeout 2) := by
  obtain ⟨c1, c2, c3⟩ := launch_schedule ws w0 hT0 hT1 hL hws
  have c4 : ∀ tmax : Int, (∀ p ∈ ws, p.1 ≤ tmax) → launchReadings ws w0 ≠ [] →
      w0.lastRun + ((launchReadings ws w0).length : Int) * Int.tdiv w0.timeout 2 < tmax := by
    intro tmax hmax hne
    have hpos : 0 < (launchReadings ws w0).length := List.length_pos.mpr hne
    have hlen : (launchReadings ws w0).length - 1 < (launchReadings ws w0).length := by omega
    have hget := c3 ((launchReadings ws w0).length - 1)
      ((launchReadings ws w0)[(launchReadings ws w0).length - 1])
      (List.getElem?_eq_getElem hlen)
    have hcast : (((launchReadings ws w0).length - 1 : Nat) : Int) + 1 =
        ((launchReadings ws w0).length : Int) := by omega
    rw [hcast] at hget
    obtain ⟨p, hp, hpe⟩ := launchReadings_mem ws w0 _ (List.getElem_mem hlen)
    have := hmax p hp
    omega
  refine ⟨c1, c2, c3, c4, ?_⟩
  intro h2 tmax hmax hle
  have hh : 0 < Int.tdiv w0.timeout 2 := by
    rw [Int.tdiv_eq_ediv (le_of_lt hT0) (by decide)]
    omega
  by_cases hne : launchReadings ws w0 = []
  · rw [hne]
    simp only [List.length_nil, Nat.cast_zero]
    exact Int.ediv_nonneg (by omega) (le_of_lt hh)
  · have := c4 tmax hmax hne
    exact Int.le_ediv_of_mul_le hh (by omega)

/-- C4 at `freshWorld` with `burstWrites`: two launches, `lastRun` moved from 0 to 10. -/
theorem throttle_bounds_launch_count_witness :
    (runWrites burstWrites freshWorld).lastRun = 10 :=
  (throttle_bounds_launch_count burstWrites freshWorld (by decide) (by decide) (by decide)
    (by decide)).1.trans (by decide)

/-- C4 as written fails: on `freshWorld` (timeout 10, built at reading 0), the writes of
`burstWrites`, made at the non-decreasing readings 100 and 101, both launch a sweep, and the
two readings are 1 apart, less than `timeout/2 = 5`. -/
theorem throttle_spacing_counterexample :
    (0 : Int) < freshWorld.timeout ∧
    (burstWrites.map Prod.fst).Pairwise (fun a b => a ≤ b) ∧
    launchReadings burstWrites freshWorld = [100, 101] ∧
    ¬ (launchReadings burstWrites freshWorld).Pairwise
        (fun a b => Int.tdiv freshWorld.timeout 2 ≤ b - a) := by
  decide

/-- C5: on a new map with timeout `T > 0`, built at a reading `tc`, `Store(a, x)` at reading
`t0 >= tc` followed by `Store(b, y)` at a reading `t1 > t0 + T` makes the second `Store` launch
a sweep; when that sweep runs at a reading `t2` with `t1 <= t2 <= t1 + T`, afterwards `Load(a)`
finds nothing and `Load(b)` returns `(y, true)`. -/
theorem later_write_expires_earlier_entry (T tc t0 t1 t2 : Int) (a b : K) (x y : V)
    (fs : List (K → V → CallResult))
    (hT0 : 0 < T) (hT1 : T ≤ maxInt64) (hab : a ≠ b)
    (hc : inClockRange tc) (h0 : inClockRange t0) (h1 : inClockRange t1)
    (hc0 : tc ≤ t0) (h01 : t0 + T < t1) (h12 : t1 ≤ t2) (h2 : t2 ≤ t1 + T) :
    (Store t1 b y (Store t0 a x
      (World.ofMap (New tc T (fs.map WithExpirationCallback))))).goroutines =
      (Store t0 a x (World.ofMap (New tc T (fs.map WithExpirationCallback)))).goroutines + 1 ∧
    Load a (CleanNow t2 (Store t1 b y (Store t0 a x
      (World.ofMap (New tc T (fs.map WithExpirationCallback)))))).1 = none ∧
    Load b (CleanNow t2 (Store t1 b y (Store t0 a x
      (World.ofMap (New tc T (fs.map WithExpirationCallback)))))).1 = some y := by
  obtain ⟨n1, n2, n3, n4⟩ := New_fields (K := K) (V := V) tc T fs
  have w0t : (World.ofMap (New tc T (fs.map WithExpirationCallback))).timeout = T := n1
  have w0m : (World.ofMap (New tc T (fs.map WithExpirationCallback))).m = [] := n2
  have w0c : (World.ofMap (New tc T (fs.map WithExpirationCallback))).cleaning = false := n3
  have w0l : (World.ofMap (New tc T (fs.map WithExpirationCallback))).lastRun = tc :=
    n4.trans (nowNanos_of_isInt64 (isInt64_of_inClockRange hc))
  generalize World.ofMap (New tc T (fs.map WithExpirationCallback)) = w0 at w0t w0m w0c w0l ⊢
  have hh : Int.tdiv T 2 = T / 2 := Int.tdiv_eq_ediv (le_of_lt hT0) (by decide)
  -- the first write
  have hnext0 : isInt64 (nextAllowed w0) :=
    isInt64_nextAllowed w0 (w0t ▸ le_of_lt hT0) (w0t ▸ hT1) (w0l ▸ hc)
  obtain ⟨w1t, w1l⟩ :=
    Write_apply_throttle t0 (Write.store a x) w0 (isInt64_of_inClockRange h0) hnext0
  obtain ⟨w1m, -, -, w1c, -⟩ :=
    hit_frame t0 { w0 with m := syncMap.Store w0.m a { inner := x, created := t0 } }
  change (Store t0 a x w0).timeout = w0.timeout at w1t
  change ((Store t0 a x w0).lastRun = w0.lastRun ∧
      (Store t0 a x w0).goroutines = w0.goroutines) ∨
    (nextAllowed w0 < t0 ∧ (Store t0 a x w0).lastRun = nextAllowed w0 ∧
      (Store t0 a x w0).goroutines = w0.goroutines + 1) at w1l
  change (Store t0 a x w0).m = syncMap.Store w0.m a { inner := x, created := t0 } at w1m
  change (Store t0 a x w0).cleaning = w0.cleaning at w1c
  rw [w0m] at w1m
  rw [w0c] at w1c
  rw [w0t] at w1t
  have w1m2 : (Store t0 a x w0).m = [(a, { inner := x, created := t0 })] := by
    rw [w1m]; rfl
  have w1lr : tc ≤ (Store t0 a x w0).lastRun ∧ (Store t0 a x w0).lastRun ≤ t0 := by
    unfold nextAllowed at w1l
    rw [w0l, w0t, hh] at w1l
    rcases w1l with ⟨e, -⟩ | ⟨lt, e, -⟩
    · rw [e]; exact ⟨le_refl _, hc0⟩
    · rw [e]; omega
  generalize Store t0 a x w0 = w1 at w1t w1m2 w1c w1lr ⊢
  -- the second write
  have hL1 : inClockRange w1.lastRun := by
    unfold inClockRange at hc h0 ⊢
    omega
  have hpast : nextAllowed
      { w1 with m := syncMap.Store w1.m b { inner := y, created := t1 } } < t1 := by
    unfold nextAllowed
    simp only [w1t, hh]
    omega
  have hw2 : Store t1 b y w1 =
      { w1 with m := syncMap.Store w1.m b { inner := y, created := t1 },
                lastRun := nextAllowed w1, goroutines := w1.goroutines + 1 } := by
    unfold Store
    rw [hit_of_past t1 { w1 with m := syncMap.Store w1.m b { inner := y, created := t1 } }
      (isInt64_of_inClockRange h1)
      (isInt64_nextAllowed { w1 with m := syncMap.Store w1.m b { inner := y, created := t1 } }
        (w1t ▸ le_of_lt hT0) (w1t ▸ hT1) hL1) hpast]
    rfl
  have w2m : (Store t1 b y w1).m =
      [(b, { inner := y, created := t1 }), (a, { inner := x, created := t0 })] := by
    rw [hw2]
    simp [syncMap.Store, syncMap.Delete, w1m2, hab]
  have w2t : (Store t1 b y w1).timeout = T := by rw [hw2]; exact w1t
  have w2c : (Store t1 b y w1).cleaning = false := by rw [hw2]; exact w1c
  have w2g : (Store t1 b y w1).goroutines = w1.goroutines + 1 := by rw [hw2]
  refine ⟨w2g, ?_, ?_⟩
  · generalize Store t1 b y w1 = w2 at w2m w2t w2c
    have hwrap : wrapInt64 (-w2.timeout) = -T := by
      rw [w2t]
      exact wrapInt64_neg_timeout (by unfold minInt64; omega) hT1
    apply Load_of_store_none
    rw [CleanNow_of_idle t2 w2 w2c, hwrap]
    dsimp only
    have wsm : ({ w2 with cleaning := true } : World K V).m =
        [(b, { inner := y, created := t1 }), (a, { inner := x, created := t0 })] := w2m
    generalize ({ w2 with cleaning := true } : World K V) = ws at wsm ⊢
    rw [w2m]
    have hb : ¬ t1 < t2 + -T := by omega
    have ha : t0 < t2 + -T := by omega
    have s1 : expireVisit (t2 + -T) b { inner := y, created := t1 } ws = Visit.more ws := by
      simp [expireVisit, hb]
    obtain ⟨w3, hv, hm3, -⟩ := expireVisit_cases (t2 + -T) a { inner := x, created := t0 } ws
    have hm4 : w3.m = [(b, { inner := y, created := t1 })] := by
      rw [hm3, if_pos ha, wsm, syncMap.Delete_cons_of_ne _ _ (Ne.symm hab),
        syncMap.Delete_cons_self]
      rfl
    have hr : (syncMap.Range (expireVisit (t2 + -T))
        [(b, { inner := y, created := t1 }), (a, { inner := x, created := t0 })] ws).1 = w3 := by
      rcases hv with hv | hv <;> simp only [syncMap.Range, s1, hv]
    rw [hr, hm4]
    simp [syncMap.Load, Ne.symm hab]
  · have hwf2 : WF (Store t1 b y w1) := by
      unfold WF
      rw [w2m]
      simp [Ne.symm hab]
    have hl : syncMap.Load (Store t1 b y w1).m b = some { inner := y, created := t1 } := by
      rw [w2m]
      simp [syncMap.Load]
    have hwrap : wrapInt64 (-(Store t1 b y w1).timeout) = -T := by
      rw [w2t]
      exact wrapInt64_neg_timeout (by unfold minInt64; omega) hT1
    have := CleanNow_keeps t2 (Store t1 b y w1) hwf2 b _ hl (by rw [hwrap]; simp only; omega)
    exact Load_of_store_some b _ _ this

/-- C5 for timeout 10: a map built at 0, `Store(1, 100)` at 0, `Store(2, 200)` at 11, sweep at
15: key 1 is gone. -/
theorem later_write_expires_earlier_entry_witness :
    Load 1 (CleanNow 15 (Store 11 2 200 (Store 0 1 100
      (World.ofMap (New 0 10 (([] : List (Nat → Nat → CallResult)).map
        WithExpirationCallback)))))).1 = none :=
  (later_write_expires_earlier_entry 10 0 0 11 15 1 2 100 200 [] (by decide) (by decide)
    (by decide) (by decide) (by decide) (by decide) (by decide) (by decide) (by decide)
    (by decide)).2.1

/-- C6: on a map with a non-negative timeout, `Load(k)` made right after `Store(k, v)`, at the
same clock reading, returns `(v, true)`, both when no sweep has run in between and when a sweep
(the one this `Store` scheduled, or any other) has run at that reading, whatever the callback
does. -/
theorem Load_after_Store (now : Int) (key : K) (value : V) (w : World K V)
    (hwf : WF w) (h0 : 0 ≤ w.timeout) (h1 : w.timeout ≤ maxInt64) :
    Load key (Store now key value w) = some value ∧
    Load key (CleanNow now (Store now key value w)).1 = some value := by
  have hl := Load_Store_self now key value w
  refine ⟨Load_of_store_some key _ _ hl, ?_⟩
  have hwrap : wrapInt64 (-(Store now key value w).timeout) = -w.timeout := by
    rw [Store_timeout]
    exact wrapInt64_neg_timeout (by unfold minInt64; omega) h1
  have := CleanNow_keeps now (Store now key value w) (Store_WF now key value w hwf) key _ hl
    (by rw [hwrap]; simp only; omega)
  exact Load_of_store_some key _ _ this

/-- C6 at `sampleWorld`: `Store(1, 7)` at reading 50, a sweep at 50, then `Load(1)`. -/
theorem Load_after_Store_witness :
    Load 1 (CleanNow 50 (Store 50 1 7 sampleWorld)).1 = some 7 :=
  (Load_after_Store 50 1 7 sampleWorld (by decide) (by decide) (by decide)).2

/-- C7: on a map with a non-negative timeout, built at reading `t0`, every sequence of `Store`
and `LoadOrStore` calls made while the clock still reads `t0` launches no sweep and leaves
`lastRun` at `t0`; in particular the first write does. -/
theorem no_sweep_at_construction_instant (T t0 : Int) (fs : List (K → V → CallResult))
    (ops : List (Write K V)) (h0 : 0 ≤ T) (h1 : T ≤ maxInt64) (hc : inClockRange t0) :
    (World.ofMap (New t0 T (fs.map WithExpirationCallback))).lastRun = t0 ∧
    (runWrites (ops.map (fun op => (t0, op)))
      (World.ofMap (New t0 T (fs.map WithExpirationCallback)))).goroutines = 0 ∧
    (runWrites (ops.map (fun op => (t0, op)))
      (World.ofMap (New t0 T (fs.map WithExpirationCallback)))).lastRun = t0 ∧
    launchReadings (ops.map (fun op => (t0, op)))
      (World.ofMap (New t0 T (fs.map WithExpirationCallback))) = [] ∧
    (∀ op : Write K V,
      (op.apply t0 (World.ofMap (New t0 T (fs.map WithExpirationCallback)))).goroutines = 0 ∧
      (op.apply t0 (World.ofMap (New t0 T (fs.map WithExpirationCallback)))).lastRun = t0) := by
  obtain ⟨n1, -, -, n4⟩ := New_fields (K := K) (V := V) t0 T fs
  have w0t : (World.ofMap (New t0 T (fs.map WithExpirationCallback))).timeout = T := n1
  have w0l : (World.ofMap (New t0 T (fs.map WithExpirationCallback))).lastRun = t0 :=
    n4.trans (nowNanos_of_isInt64 (isInt64_of_inClockRange hc))
  have w0g : (World.ofMap (New t0 T (fs.map WithExpirationCallback))).goroutines = 0 := rfl
  generalize World.ofMap (New t0 T (fs.map WithExpirationCallback)) = w0 at w0t w0l w0g ⊢
  have step : ∀ (op : Write K V) (w : World K V), w.timeout = T → w.lastRun = t0 →
      (op.apply t0 w).timeout = T ∧ (op.apply t0 w).lastRun = t0 ∧
      (op.apply t0 w).goroutines = w.goroutines := by
    intro op w et el
    have hnext := isInt64_nextAllowed w (et ▸ h0) (et ▸ h1) (el ▸ hc)
    obtain ⟨e1, e2⟩ := Write_apply_throttle t0 op w (isInt64_of_inClockRange hc) hnext
    rcases e2 with ⟨e2, e3⟩ | ⟨hlt, -, -⟩
    · exact ⟨e1.trans et, e2.trans el, e3⟩
    · exfalso
      unfold nextAllowed at hlt
      rw [et, el, Int.tdiv_eq_ediv h0 (by decide)] at hlt
      omega
  have all : ∀ (l : List (Write K V)) (w : World K V), w.timeout = T → w.lastRun = t0 →
      (runWrites (l.map (fun op => (t0, op))) w).goroutines = w.goroutines ∧
      (runWrites (l.map (fun op => (t0, op))) w).lastRun = t0 ∧
      launchReadings (l.map (fun op => (t0, op))) w = [] := by
    intro l
    induction l with
    | nil => intro w _ el; exact ⟨rfl, el, rfl⟩
    | cons op rest ih =>
      intro w et el
      obtain ⟨s1, s2, s3⟩ := step op w et el
      obtain ⟨i1, i2, i3⟩ := ih (op.apply t0 w) s1 s2
      simp only [List.map_cons, runWrites, launchReadings, s3, if_true]
      exact ⟨i1.trans s3, i2, i3⟩
  obtain ⟨a1, a2, a3⟩ := all ops w0 w0t w0l
  refine ⟨w0l, a1.trans w0g, a2, a3, ?_⟩
  intro op
  obtain ⟨-, s2, s3⟩ := step op w0 w0t w0l
  exact ⟨s3.trans w0g, s2⟩

/-- C7 for a map with timeout 0 built at reading 7 and two writes made at reading 7. -/
theorem no_sweep_at_construction_instant_witness :
    (runWrites ([Write.store 1 1, Write.loadOrStore 2 2].map (fun op => ((7 : Int), op)))
      (World.ofMap (New 7 0 (([] : List (Nat → Nat → CallResult)).map
        WithExpirationCallback)))).goroutines = 0 :=
  (no_sweep_at_construction_instant 0 7 [] [Write.store 1 1, Write.loadOrStore 2 2]
    (by decide) (by decide) (by decide)).2.1

/-- C8: `Store` overwrites unconditionally with a fresh creation time: after `Store(k, v1)` at
reading `t0` and `Store(k, v2)` at a reading `t1` (any `t1`, so every `t1 >= t0`), the entry of
`k` holds `v2` with creation time `t1`; a sweep at any reading `t2 <= t1 + timeout` keeps it,
and `Load(k)` then returns `(v2, true)`, however long before `t2` the first `Store` was
made. -/
theorem Store_overwrites_with_fresh_time (t0 t1 t2 : Int) (key : K) (v1 v2 : V)
    (w : World K V) (hwf : WF w) (h1 : minInt64 < w.timeout) (h2 : w.timeout ≤ maxInt64)
    (h12 : t2 ≤ t1 + w.timeout) :
    syncMap.Load (Store t1 key v2 (Store t0 key v1 w)).m key =
      some { inner := v2, created := t1 } ∧
    syncMap.Load (CleanNow t2 (Store t1 key v2 (Store t0 key v1 w))).1.m key =
      some { inner := v2, created := t1 } ∧
    Load key (CleanNow t2 (Store t1 key v2 (Store t0 key v1 w))).1 = some v2 := by
  have hl := Load_Store_self t1 key v2 (Store t0 key v1 w)
  have ht : (Store t1 key v2 (Store t0 key v1 w)).timeout = w.timeout := by
    rw [Store_timeout, Store_timeout]
  have hwrap : wrapInt64 (-(Store t1 key v2 (Store t0 key v1 w)).timeout) = -w.timeout := by
    rw [ht]
    exact wrapInt64_neg_timeout h1 h2
  have hk := CleanNow_keeps t2 (Store t1 key v2 (Store t0 key v1 w))
    (Store_WF t1 key v2 _ (Store_WF t0 key v1 w hwf)) key _ hl
    (by rw [hwrap]; simp only; omega)
  exact ⟨hl, hk, Load_of_store_some key _ _ hk⟩

/-- C8 at `sampleWorld` (timeout 10): key 1 stored at 0 and again at 100, swept at 110, well
after `0 + timeout`: the second value is still there. -/
theorem Store_overwrites_with_fresh_time_witness :
    Load 1 (CleanNow 110 (Store 100 1 8 (Store 0 1 7 sampleWorld))).1 = some 8 :=
  (Store_overwrites_with_fresh_time 0 100 110 1 7 8 sampleWorld (by decide) (by decide)
    (by decide) (by decide)).2.2

/-- C9, as the code has it: `LoadOrStore` on a key that is already present changes nothing: it
returns the stored value with `loaded = true` and the whole state is as before, so the entry
keeps its value and its creation time, `lastRun` is unchanged and no sweep is launched, at
every reading `now` (also one past the throttle window); hence a sweep at a reading `t2` more
than `timeout` after the original creation time that performs its scan and returns normally
still removes the entry. -/
theorem LoadOrStore_present_changes_nothing (now t2 : Int) (key : K) (value : V)
    (w : World K V) (a : entry V) (hload : syncMap.Load w.m key = some a) :
    LoadOrStore now key value w = ((a.inner, true), w) ∧
    syncMap.Load (LoadOrStore now key value w).2.m key = some a ∧
    (LoadOrStore now key value w).2.lastRun = w.lastRun ∧
    (LoadOrStore now key value w).2.goroutines = w.goroutines ∧
    (WF w → w.cleaning = false → minInt64 < w.timeout → w.timeout ≤ maxInt64 →
      a.created + w.timeout < t2 →
      (CleanNow t2 (LoadOrStore now key value w).2).2 = CallResult.returned →
      Load key (CleanNow t2 (LoadOrStore now key value w).2).1 = none) := by
  have hst : LoadOrStore now key value w = ((a.inner, true), w) := by
    simp [LoadOrStore, syncMap.LoadOrStore, hload]
  rw [hst]
  refine ⟨rfl, hload, rfl, rfl, ?_⟩
  intro hwf hidle h1 h2 hexp hout
  apply Load_of_store_none
  rw [CleanNow_of_returned_bounded t2 w hwf hidle h1 h2 hout]
  have hx : a.created < t2 - w.timeout := by omega
  exact Load_filter_of_neg _ w.m key a hwf hload (decide_eq_false (not_not.mpr hx))

/-- C9 at `sampleWorld` (timeout 10, key 1 created at 0): `LoadOrStore(1, 9)` at reading 1000
returns the stored 100 and launches nothing, and a sweep at reading 11 removes key 1. -/
theorem LoadOrStore_present_changes_nothing_witness :
    (LoadOrStore 1000 1 9 sampleWorld).1 = (100, true) ∧
    (LoadOrStore 1000 1 9 sampleWorld).2.goroutines = 0 ∧
    Load 1 (CleanNow 11 (LoadOrStore 1000 1 9 sampleWorld).2).1 = none :=
  have h := LoadOrStore_present_changes_nothing 1000 11 1 9 sampleWorld
    { inner := 100, created := 0 } (by decide)
  ⟨congrArg Prod.fst h.1, h.2.2.2.1,
    h.2.2.2.2 (by decide) rfl (by decide) (by decide) (by decide) (by decide)⟩

/-- C9 as written fails in its last part: in `builtFaultyWorld` (timeout 10) key 2 is present,
created at 0; `LoadOrStore(2, 9)` at reading 50 returns the stored 200, and the sweep at
reading 50, more than `timeout` after the creation, performs its scan and leaves key 2: the
callback panics on key 1, visited first. -/
theorem LoadOrStore_then_sweep_counterexample :
    (LoadOrStore 50 2 9 builtFaultyWorld).1 = (200, true) ∧
    syncMap.Load builtFaultyWorld.m 2 = some { inner := 200, created := 0 } ∧
    (0 : Int) + builtFaultyWorld.timeout < 50 ∧
    (LoadOrStore 50 2 9 builtFaultyWorld).2.cleaning = false ∧
    Load 2 (CleanNow 50 (LoadOrStore 50 2 9 builtFaultyWorld).2).1 = some 200 := by
  decide

/-- C10: `LoadOrStore(k, v)` returns `(w, true)` when `k` is present with value `w`; when `k`
is absent it returns `(v, false)`, inserts `k` with value `v` and creation time `now`, after
which `Load(k)` returns `(v, true)`, and it runs the throttled-scheduling check `hit` on the
state with the new entry: with int64 readings and no overflow of `lastRun + timeout/2`, a
sweep is launched and `lastRun` moved to `nextAllowed` when `nextAllowed < now`, and nothing
is launched and `lastRun` is left alone otherwise. -/
theorem LoadOrStore_returns_and_inserts (now : Int) (key : K) (value : V) (w : World K V) :
    (∀ x, Load key w = some x → (LoadOrStore now key value w).1 = (x, true)) ∧
    (Load key w = none →
      (LoadOrStore now key value w).1 = (value, false) ∧
      (LoadOrStore now key value w).2 =
        hit now { w with m := (key, { inner := value, created := now }) :: w.m } ∧
      syncMap.Load (LoadOrStore now key value w).2.m key =
        some { inner := value, created := now } ∧
      Load key (LoadOrStore now key value w).2 = some value ∧
      (isInt64 now → isInt64 (nextAllowed w) →
        (nextAllowed w < now →
          (LoadOrStore now key value w).2.goroutines = w.goroutines + 1 ∧
          (LoadOrStore now key value w).2.lastRun = nextAllowed w) ∧
        (now ≤ nextAllowed w →
          (LoadOrStore now key value w).2.goroutines = w.goroutines ∧
          (LoadOrStore now key value w).2.lastRun = w.lastRun))) := by
  constructor
  · intro x hx
    cases hload : syncMap.Load w.m key with
    | none => simp [Load, hload] at hx
    | some a =>
      simp only [Load, hload, Option.some.injEq] at hx
      simp [LoadOrStore, syncMap.LoadOrStore, hload, hx]
  · intro hx
    have hload : syncMap.Load w.m key = none := by
      cases h : syncMap.Load w.m key with
      | none => rfl
      | some a => simp [Load, h] at hx
    have hst : LoadOrStore now key value w = ((value, false),
        hit now { w with m := (key, { inner := value, created := now }) :: w.m }) := by
      simp [LoadOrStore, syncMap.LoadOrStore, hload]
    have hm : (hit now { w with m := (key, { inner := value, created := now }) :: w.m }).m =
        (key, { inner := value, created := now }) :: w.m := (hit_frame now _).1
    have hl : syncMap.Load
        (hit now { w with m := (key, { inner := value, created := now }) :: w.m }).m key =
        some { inner := value, created := now } := by
      rw [hm]
      simp [syncMap.Load]
    rw [hst]
    refine ⟨rfl, rfl, hl, Load_of_store_some key _ _ hl, ?_⟩
    intro hnow hnext
    constructor
    · intro hlt
      have h := hit_of_past now
        { w with m := (key, { inner := value, created := now }) :: w.m } hnow hnext hlt
      simp only
      rw [h]
      exact ⟨rfl, rfl⟩
    · intro hle
      have h := hit_of_not_past now
        { w with m := (key, { inner := value, created := now }) :: w.m } hnow hnext hle
      simp only
      rw [h]
      exact ⟨rfl, rfl⟩

/-- C11: a `CleanNow` call made while the sweep flag is set returns at once and does no
work: the call returns normally with the state it found, so no entry is removed, the callback
is not called, and the flag stays set for the sweep that owns it. -/
theorem CleanNow_while_sweeping_does_nothing (now : Int) (w : World K V)
    (hbusy : w.cleaning = true) :
    CleanNow now w = (w, CallResult.returned) ∧
    (CleanNow now w).1.m = w.m ∧
    (CleanNow now w).1.expirations = w.expirations ∧
    (CleanNow now w).1.cleaning = true := by
  rw [CleanNow_of_cleaning now w hbusy]
  exact ⟨rfl, rfl, rfl, hbusy⟩

/-- C11 at `busyWorld`, which holds an entry created at 0 with timeout 10: a call at reading
1000 removes nothing. -/
theorem CleanNow_while_sweeping_does_nothing_witness :
    (CleanNow 1000 busyWorld).1.m = busyWorld.m ∧ expiredEntries 1000 busyWorld ≠ [] :=
  ⟨(CleanNow_while_sweeping_does_nothing 1000 busyWorld rfl).2.1, by decide⟩

/-- C12: a `CleanNow` call that acquires the sweep flag releases it on every way out: after
the call the flag is false, whether the call returned or the expiration callback panicked on
some entry, so the next `CleanNow` call, at any reading, does not return early but performs
the scan of `range_`. -/
theorem CleanNow_releases_flag (now next : Int) (w : World K V) (hidle : w.cleaning = false) :
    (CleanNow now w).1.cleaning = false ∧
    CleanNow next (CleanNow now w).1 =
      ({ (range_ (expireVisit (next + wrapInt64 (-(CleanNow now w).1.timeout)))
            { (CleanNow now w).1 with cleaning := true }
            { (CleanNow now w).1 with cleaning := true }).1 with cleaning := false },
       (range_ (expireVisit (next + wrapInt64 (-(CleanNow now w).1.timeout)))
            { (CleanNow now w).1 with cleaning := true }
            { (CleanNow now w).1 with cleaning := true }).2) := by
  have h1 : (CleanNow now w).1.cleaning = false := by
    rw [CleanNow_of_idle now w hidle]
  exact ⟨h1, CleanNow_of_idle next (CleanNow now w).1 h1⟩

/-- C12 at `faultyWorld`, swept at reading 50: the callback panics on key 1, the flag is
released, and the next call removes key 2, which the aborted scan had left. -/
theorem CleanNow_releases_flag_witness :
    (CleanNow 50 faultyWorld).2 = CallResult.panicked ∧
    (CleanNow 50 faultyWorld).1.cleaning = false ∧
    Load 2 (CleanNow 50 faultyWorld).1 = some 200 ∧
    Load 2 (CleanNow 50 (CleanNow 50 faultyWorld).1).1 = none :=
  ⟨by decide, (CleanNow_releases_flag 50 50 faultyWorld rfl).1, by decide, by decide⟩

/-- C13, as the code has it: a panicking expiration callback aborts the sweep.  When the
callback panics on the expired entry `(k, e)`, `CleanNow` ends with that panic: the entries
scanned before `(k, e)` have been handled as usual, `(k, e)` itself has been removed and the
callback called for it, every entry after it is left in the store untouched, whether expired
or not, the sweep flag is released, and the panic reaches the caller of `CleanNow`: a reaper
stops with it and runs no later tick. -/
theorem CleanNow_aborts_at_panicking_callback (now : Int) (w : World K V)
    (f : K → V → CallResult) (before : List (K × entry V)) (k : K) (e : entry V)
    (rest : List (K × entry V)) (events : List ReaperEvent)
    (hm : w.m = before ++ (k, e) :: rest) (hwf : WF w) (hidle : w.cleaning = false)
    (h1 : minInt64 < w.timeout) (h2 : w.timeout ≤ maxInt64) (hf : w.expired = some f)
    (hret : ∀ p ∈ before, p.2.created < now - w.timeout →
      f p.1 p.2.inner = CallResult.returned)
    (hx : e.created < now - w.timeout) (hp : f k e.inner = CallResult.panicked) :
    (CleanNow now w).2 = CallResult.panicked ∧
    (CleanNow now w).1.m =
      before.filter (fun p => decide (now - w.timeout ≤ p.2.created)) ++ rest ∧
    (CleanNow now w).1.expirations =
      w.expirations ++ ((before.filter (fun p => decide (p.2.created < now - w.timeout))).map
        (fun p => (p.1, p.2.inner)) ++ [(k, e.inner)]) ∧
    (CleanNow now w).1.cleaning = false ∧
    Reaper.run CleanNow (ReaperEvent.tick now :: events) w =
      ((CleanNow now w).1, CallResult.panicked) := by
  have hc := CleanNow_until_panic now w f before k e rest hm hwf hidle h1 h2 hf hret hx hp
  have hout : (CleanNow now w).2 = CallResult.panicked := by rw [hc]
  refine ⟨hout, ?_, ?_, ?_, ?_⟩
  · rw [hc]
    simp
  · rw [hc]
  · rw [hc]
    exact hidle
  · simp only [Reaper.run]
    split
    · next s1 heq =>
      rw [heq] at hout
      exact CallResult.noConfusion hout
    · next s1 heq =>
      rw [heq]

/-- C13 at `faultyWorld`, swept at reading 50: the callback panics on key 1, the first entry,
and the store is left with keys 2 and 3, key 2 being expired. -/
theorem CleanNow_aborts_at_panicking_callback_witness :
    (CleanNow 50 faultyWorld).1.m =
      [(2, { inner := 200, created := 0 }), (3, { inner := 300, created := 100 })] :=
  (CleanNow_aborts_at_panicking_callback 50 faultyWorld faultyCallback [] 1
    { inner := 100, created := 0 }
    [(2, { inner := 200, created := 0 }), (3, { inner := 300, created := 100 })] []
    rfl (by decide) rfl (by decide) (by decide) rfl (by simp) (by decide) rfl).2.1.trans
    (by decide)

/-- C13 as written fails: `faultyWorld` holds two entries expired at reading 50, keys 1 and
2, and its callback panics on key 1; `CleanNow` at 50 ends with the panic and leaves key 2 in
the store. -/
theorem CleanNow_panic_counterexample :
    expiredEntries 50 faultyWorld =
      [(1, { inner := 100, created := 0 }), (2, { inner := 200, created := 0 })] ∧
    faultyCallback 1 100 = CallResult.panicked ∧
    (CleanNow 50 faultyWorld).2 = CallResult.panicked ∧
    Load 2 (CleanNow 50 faultyWorld).1 = some 200 ∧
    ¬ (∀ p ∈ expiredEntries 50 faultyWorld, p ∉ (CleanNow 50 faultyWorld).1.m) := by
  decide

/-- C14: `Load` does not check expiry and only reads.  It is a function of the store alone,
with no clock reading among its arguments and no state among its results: `Load(k)` returns
`(v, true)` when the store holds `k` with value `v`, also when that entry is expired at the
current reading, and reports not found when the store does not hold `k`. -/
theorem Load_reads_without_expiry_check (key : K) (w : World K V) (hwf : WF w) :
    (∀ a, (key, a) ∈ w.m → Load key w = some a.inner) ∧
    (∀ now a, (key, a) ∈ w.m → a.created < now - w.timeout → Load key w = some a.inner) ∧
    (key ∉ w.m.map Prod.fst → Load key w = none) ∧
    (∀ v, Load key w = some v → ∃ a, (key, a) ∈ w.m ∧ a.inner = v) := by
  have hpresent : ∀ a, (key, a) ∈ w.m → Load key w = some a.inner :=
    fun a ha => Load_of_store_some key w a (syncMap.Load_of_mem hwf ha)
  refine ⟨hpresent, fun _ a ha _ => hpresent a ha, ?_, ?_⟩
  · intro habs
    exact Load_of_store_none key w ((syncMap.Load_eq_none_iff w.m key).mpr habs)
  · intro v hv
    cases hl : syncMap.Load w.m key with
    | none => simp [Load, hl] at hv
    | some a =>
      simp only [Load, hl, Option.some.injEq] at hv
      exact ⟨a, syncMap.Load_mem hl, hv⟩

/-- C14 at `sampleWorld` (timeout 10): key 1, created at 0, is expired at reading 1000 and
`Load(1)` still returns its value. -/
theorem Load_reads_without_expiry_check_witness : Load 1 sampleWorld = some 100 :=
  (Load_reads_without_expiry_check 1 sampleWorld (by decide)).2.1 1000
    { inner := 100, created := 0 } (by decide) (by decide)

/-- C15: after `Delete(k)`, `Load(k)` reports not found and every other key loads as before,
with the same entry; `Delete` of an absent key leaves the whole state unchanged; `Delete`
never calls the expiration callback, never changes `lastRun` or the sweep flag and never
launches a sweep. -/
theorem Delete_removes_only_its_key (key : K) (w : World K V) :
    Load key (Delete key w) = none ∧
    (∀ k, k ≠ key → syncMap.Load (Delete key w).m k = syncMap.Load w.m k) ∧
    (∀ k, k ≠ key → Load k (Delete key w) = Load k w) ∧
    (Load key w = none → Delete key w = w) ∧
    (Delete key w).expirations = w.expirations ∧
    (Delete key w).lastRun = w.lastRun ∧
    (Delete key w).goroutines = w.goroutines ∧
    (Delete key w).cleaning = w.cleaning := by
  refine ⟨?_, ?_, ?_, ?_, rfl, rfl, rfl, rfl⟩
  · exact Load_of_store_none key _ (syncMap.Load_Delete_self w.m key)
  · intro k hk
    exact syncMap.Load_Delete_of_ne w.m hk
  · intro k hk
    have h : syncMap.Load (Delete key w).m k = syncMap.Load w.m k :=
      syncMap.Load_Delete_of_ne w.m hk
    simp only [Load, h]
  · intro habs
    have hl : syncMap.Load w.m key = none := by
      cases h : syncMap.Load w.m key with
      | none => rfl
      | some a => simp [Load, h] at habs
    have hd : syncMap.Delete w.m key = w.m :=
      syncMap.Delete_of_not_mem ((syncMap.Load_eq_none_iff w.m key).mp hl)
    unfold Delete
    rw [hd]

/-- C16: when `k` is present with value `v`, `LoadAndDelete(k)` returns `(v, true)` and
removes `k`, so `Load(k)` and a repeated `LoadAndDelete(k)` find nothing; when `k` is absent
it returns `loaded = false` and leaves the state unchanged; in both cases it launches no
sweep, leaves `lastRun` and the sweep flag unchanged and does not call the callback. -/
theorem LoadAndDelete_returns_and_removes (key : K) (w : World K V) :
    (∀ v, Load key w = some v →
      (LoadAndDelete key w).1 = some v ∧
      Load key (LoadAndDelete key w).2 = none ∧
      (LoadAndDelete key (LoadAndDelete key w).2).1 = none) ∧
    (Load key w = none → (LoadAndDelete key w).1 = none ∧ (LoadAndDelete key w).2 = w) ∧
    (∀ k, k ≠ key → Load k (LoadAndDelete key w).2 = Load k w) ∧
    (LoadAndDelete key w).2.goroutines = w.goroutines ∧
    (LoadAndDelete key w).2.lastRun = w.lastRun ∧
    (LoadAndDelete key w).2.cleaning = w.cleaning ∧
    (LoadAndDelete key w).2.expirations = w.expirations := by
  have hst : (LoadAndDelete key w).2 = { w with m := syncMap.Delete w.m key } := by
    unfold LoadAndDelete
    simp only [syncMap.LoadAndDelete]
    split <;> rfl
  have hres : (LoadAndDelete key w).1 = Load key w := by
    unfold LoadAndDelete Load
    simp only [syncMap.LoadAndDelete]
    split <;> rename_i h <;> simp [h]
  have hgone : syncMap.Load (LoadAndDelete key w).2.m key = none := by
    rw [hst]
    exact syncMap.Load_Delete_self w.m key
  refine ⟨?_, ?_, ?_, ?_, ?_, ?_, ?_⟩
  · intro v hv
    refine ⟨hres.trans hv, Load_of_store_none key _ hgone, ?_⟩
    have hres2 : (LoadAndDelete key (LoadAndDelete key w).2).1 =
        Load key (LoadAndDelete key w).2 := by
      unfold LoadAndDelete Load
      simp only [syncMap.LoadAndDelete]
      split <;> rename_i h <;> simp [h]
    rw [hres2]
    exact Load_of_store_none key _ hgone
  · intro habs
    refine ⟨hres.trans habs, ?_⟩
    have hl : syncMap.Load w.m key = none := by
      cases h : syncMap.Load w.m key with
      | none => rfl
      | some a => simp [Load, h] at habs
    have hd : syncMap.Delete w.m key = w.m :=
      syncMap.Delete_of_not_mem ((syncMap.Load_eq_none_iff w.m key).mp hl)
    rw [hst, hd]
  · intro k hk
    have h : syncMap.Load (LoadAndDelete key w).2.m k = syncMap.Load w.m k := by
      rw [hst]
      exact syncMap.Load_Delete_of_ne w.m hk
    simp only [Load, h]
  · rw [hst]
  · rw [hst]
  · rw [hst]
  · rw [hst]

/-- C17, as the code has it: the sweep is idempotent when it returns normally.  When the first
`CleanNow` call returns normally, running `CleanNow` twice in sequence at the same reading
leaves the same store as running it once: the second run removes no entry, calls the callback
zero times and returns normally. -/
theorem CleanNow_idempotent (now : Int) (w : World K V) (hwf : WF w)
    (hout : (CleanNow now w).2 = CallResult.returned) :
    (CleanNow now (CleanNow now w).1).1.m = (CleanNow now w).1.m ∧
    (CleanNow now (CleanNow now w).1).1.expirations = (CleanNow now w).1.expirations ∧
    (CleanNow now (CleanNow now w).1).2 = CallResult.returned := by
  cases hc : w.cleaning with
  | true =>
    rw [CleanNow_of_cleaning now w hc, CleanNow_of_cleaning now w hc]
    exact ⟨rfl, rfl, rfl⟩
  | false =>
    have h1 := CleanNow_of_returned now w hwf hc hout
    have hwf1 : WF (CleanNow now w).1 := CleanNow_WF now w hwf
    have hidle1 : (CleanNow now w).1.cleaning = false := by
      rw [h1]
      exact hc
    have ht : (CleanNow now w).1.timeout = w.timeout := by rw [h1]
    have hm : (CleanNow now w).1.m =
        w.m.filter (fun p => decide (¬ p.2.created < now + wrapInt64 (-w.timeout))) := by
      rw [h1]
    have hfresh : ∀ p ∈ (CleanNow now w).1.m,
        ¬ p.2.created < now + wrapInt64 (-(CleanNow now w).1.timeout) := by
      intro p hp
      rw [hm] at hp
      rw [ht]
      simpa using (List.mem_filter.mp hp).2
    have hout2 : (CleanNow now (CleanNow now w).1).2 = CallResult.returned :=
      (CleanNow_returned_iff now (CleanNow now w).1 hwf1 hidle1).mpr
        (fun f _ p hp hpx => absurd hpx (hfresh p hp))
    have h2 := CleanNow_of_returned now (CleanNow now w).1 hwf1 hidle1 hout2
    have hcalls := sweepCalls_of_all_fresh (CleanNow now w).1
      (now + wrapInt64 (-(CleanNow now w).1.timeout)) (CleanNow now w).1.m hfresh
    have hkeep : (CleanNow now w).1.m.filter
        (fun p => decide (¬ p.2.created < now + wrapInt64 (-(CleanNow now w).1.timeout))) =
        (CleanNow now w).1.m := by
      rw [List.filter_eq_self]
      intro p hp
      exact decide_eq_true (hfresh p hp)
    rw [h2, hcalls, hkeep]
    exact ⟨rfl, by simp, rfl⟩

/-- C17 at `sampleWorld`, swept twice at reading 15: the second run leaves the store and the
calls of the callback as the first run left them. -/
theorem CleanNow_idempotent_witness :
    (CleanNow 15 (CleanNow 15 sampleWorld).1).1.m = (CleanNow 15 sampleWorld).1.m ∧
    (CleanNow 15 (CleanNow 15 sampleWorld).1).1.expirations = [(1, 100)] :=
  have h := CleanNow_idempotent 15 sampleWorld (by decide) (by decide)
  ⟨h.1, h.2.1.trans (by decide)⟩

/-- C17 as written fails: on `builtFaultyWorld` the first `CleanNow` at reading 50 ends with
the panic of the callback on key 1 and leaves key 2; the second run at the same reading
removes key 2 and calls the callback once more, so the store after two runs differs from the
store after one. -/
theorem CleanNow_twice_counterexample :
    (CleanNow 50 builtFaultyWorld).1.m = [(2, { inner := 200, created := 0 })] ∧
    (CleanNow 50 (CleanNow 50 builtFaultyWorld).1).1.m = [] ∧
    (CleanNow 50 (CleanNow 50 builtFaultyWorld).1).1.m ≠ (CleanNow 50 builtFaultyWorld).1.m ∧
    (CleanNow 50 (CleanNow 50 builtFaultyWorld).1).1.expirations =
      (CleanNow 50 builtFaultyWorld).1.expirations ++ [(2, 200)] := by
  decide

/-- C18: `Range`, on a state that nothing else modifies.  With the calls of the visitor
recorded (which does not change what the visitor does), the pairs it is called with are an
initial part of the store's (key, value) pairs, so each is the pair of a present entry, and
no key occurs twice; a call on which the visitor returned false (or panicked) is the last
call; a visitor that always returns true is called exactly once per present entry.  `Range`
has no state among its results: the map is as before. -/
theorem Range_visits_present_entries_once {σ : Type} (g : K → V → σ → Visit σ)
    (w : World K V) (s : σ) (hwf : WF w) :
    (Range (recordingVisitor g) w (s, [])).1.1 = (Range g w s).1 ∧
    (Range (recordingVisitor g) w (s, [])).2 = (Range g w s).2 ∧
    (∃ rest, (Range (recordingVisitor g) w (s, [])).1.2.map (fun c => (c.1, c.2.1)) ++ rest =
      w.m.map (fun p => (p.1, p.2.inner))) ∧
    (∀ c ∈ (Range (recordingVisitor g) w (s, [])).1.2, Load c.1 w = some c.2.1) ∧
    ((Range (recordingVisitor g) w (s, [])).1.2.map (fun c => c.1)).Nodup ∧
    (∀ a c b, (Range (recordingVisitor g) w (s, [])).1.2 = a ++ c :: b →
      c.2.2 = false → b = []) ∧
    ((∀ k v t, ∃ t1, g k v t = Visit.more t1) →
      (Range (recordingVisitor g) w (s, [])).1.2.map (fun c => (c.1, c.2.1)) =
        w.m.map (fun p => (p.1, p.2.inner))) := by
  obtain ⟨called, rest, new, h1, h2, h3, h4, h5, h6, h7⟩ := Range_recording g w.m s []
  have hlog : (Range (recordingVisitor g) w (s, [])).1.2 = new := by
    simpa using h2
  rw [hlog]
  have hkeys : new.map (fun c => c.1) = called.map Prod.fst := by
    have := congrArg (List.map Prod.fst) h3
    simpa [List.map_map, Function.comp_def] using this
  refine ⟨h6, h7, ⟨rest.map (fun p => (p.1, p.2.inner)), ?_⟩, ?_, ?_, h4, ?_⟩
  · rw [h3, h1, List.map_append]
  · intro c hc
    have hmem : (c.1, c.2.1) ∈ called.map (fun p => (p.1, p.2.inner)) := by
      rw [← h3]
      exact List.mem_map.mpr ⟨c, hc, rfl⟩
    obtain ⟨p, hp, hpe⟩ := List.mem_map.mp hmem
    have hpw : (p.1, p.2) ∈ w.m := by
      rw [h1]
      exact List.mem_append_left _ hp
    have hl := Load_of_store_some p.1 w p.2 (syncMap.Load_of_mem hwf hpw)
    simp only [Prod.mk.injEq] at hpe
    rw [← hpe.1, ← hpe.2]
    exact hl
  · rw [hkeys]
    unfold WF at hwf
    rw [h1, List.map_append] at hwf
    exact (List.nodup_append.mp hwf).1
  · intro hall
    rw [h3, h1, h5 hall, List.append_nil]

/-- C18 at `sampleWorld` with the visitor `stopAtTwo`: called on key 1, then on key 2, where
it returns false, and not on key 3. -/
theorem Range_visits_present_entries_once_witness :
    (Range (recordingVisitor stopAtTwo) sampleWorld (0, [])).1.2 =
      [(1, 100, true), (2, 200, false)] ∧
    ((Range (recordingVisitor stopAtTwo) sampleWorld (0, [])).1.2.map (fun c => c.1)).Nodup :=
  ⟨by decide, (Range_visits_present_entries_once stopAtTwo sampleWorld 0 (by decide)).2.2.2.2.1⟩

/-- C19: on a map with a non-negative timeout, built at reading `t0`, along every sequence of
operations made at non-decreasing clock readings from `t0` on, `lastRun` never decreases, and
after every operation it is at most the reading that operation was made at: the throttle
never schedules into the future. -/
theorem lastRun_never_decreases_nor_passes_clock (T t0 : Int) (fs : List (K → V → CallResult))
    (ops : List (Int × Op K V)) (h0 : 0 ≤ T) (h1 : T ≤ maxInt64) (hc : inClockRange t0)
    (hr : ∀ p ∈ ops, inClockRange p.1)
    (hsorted : (t0 :: ops.map Prod.fst).Pairwise (fun a b => a ≤ b)) :
    (World.ofMap (New t0 T (fs.map WithExpirationCallback))).lastRun = t0 ∧
    ((World.ofMap (New t0 T (fs.map WithExpirationCallback))).lastRun ::
      (trace ops (World.ofMap (New t0 T (fs.map WithExpirationCallback)))).map
        (fun p => p.2.lastRun)).Pairwise (fun a b => a ≤ b) ∧
    ∀ p ∈ trace ops (World.ofMap (New t0 T (fs.map WithExpirationCallback))),
      p.2.lastRun ≤ p.1 := by
  obtain ⟨n1, -, -, n4⟩ := New_fields (K := K) (V := V) t0 T fs
  have w0t : (World.ofMap (New t0 T (fs.map WithExpirationCallback))).timeout = T := n1
  have w0l : (World.ofMap (New t0 T (fs.map WithExpirationCallback))).lastRun = t0 :=
    n4.trans (nowNanos_of_isInt64 (isInt64_of_inClockRange hc))
  have hL : inClockRange (World.ofMap (New t0 T (fs.map WithExpirationCallback))).lastRun := by
    rw [w0l]; exact hc
  obtain ⟨a1, a2⟩ := trace_lastRun T h0 h1 ops
    (World.ofMap (New t0 T (fs.map WithExpirationCallback))) w0t hL hr
    (by rw [w0l]; exact hsorted)
  exact ⟨w0l, a1, a2⟩

/-- C19 at `freshWorld` (timeout 10, built at reading 0) along `sampleOps`: `lastRun` goes
through 5, 5, 10, 10 while the clock reads 100, 101, 101, 200. -/
theorem lastRun_never_decreases_nor_passes_clock_witness :
    (trace sampleOps freshWorld).map (fun p => p.2.lastRun) = [5, 5, 10, 10] ∧
    ∀ p ∈ trace sampleOps freshWorld, p.2.lastRun ≤ p.1 :=
  ⟨by decide, (lastRun_never_decreases_nor_passes_clock 10 0 [] sampleOps (by decide)
    (by decide) (by decide) (by decide) (by decide)).2.2⟩

/-- C20 at a timeout of one nanosecond: `NewReaper(m)` is
`NewReaperWithInterval(m, timeout/2)` with `timeout/2 = 0`, which is not a positive duration,
and `time.NewTicker` panics on it, so no reaper is created although the timeout is
positive. -/
theorem NewReaper_panics_at_one_nanosecond :
    0 < tinyWorld.timeout ∧
    Int.tdiv tinyWorld.timeout 2 = 0 ∧
    NewReaper tinyWorld = NewReaperWithInterval tinyWorld (Int.tdiv tinyWorld.timeout 2) ∧
    NewReaper tinyWorld = none := by
  decide

end Claims

end ttlmap
